import Mathlib

/-!
Shallow embedding of the grayscale image codec
(RLE + adaptive Huffman, Škuta 2021) and verification of its
natural-language specification.

Byte buffers are `List Nat` with every element `< 256`; machine
arithmetic that can overflow is reduced explicitly (`% 2^32`,
`% 2^64`) at the points where the C++ uses fixed-width types.
-/

namespace GIC

/-- Byte-wrapped subtraction `(a - b) mod 256` on `uint8_t` operands. -/
def bsub (a b : Nat) : Nat := (a % 256 + 256 - b % 256) % 256

/-- Byte-wrapped addition `(a + b) mod 256` on `uint8_t` operands. -/
def badd (a b : Nat) : Nat := (a % 256 + b % 256) % 256

/-! ## DataWorker: differential transform (data_worker.cpp)

`Preprocess`: `diff_pixels[0] = buffer[0]`, then
`diff_pixels[i] = buffer[i] - buffer[i-1]` in `uint8_t`.
`Depreprocess`: `orig_image[0] = buffer[0]`, then
`orig_image[i] = orig_image[i-1] + buffer[i]` in `uint8_t`. -/

/-- Tail of `DataWorker::Preprocess`: each output byte is the wrapped
difference of the input byte with its predecessor `prev`. -/
def preprocessGo (prev : Nat) : List Nat → List Nat
  | [] => []
  | y :: t => bsub y prev :: preprocessGo y t

/-- `DataWorker::Preprocess`: first byte copied, then adjacent wrapped
differences. -/
def Preprocess : List Nat → List Nat
  | [] => []
  | x :: t => x % 256 :: preprocessGo x t

/-- Tail of `DataWorker::Depreprocess`: running wrapped prefix sum with
accumulator `acc` (the previously reconstructed byte). -/
def depreprocessGo (acc : Nat) : List Nat → List Nat
  | [] => []
  | y :: t => badd acc y :: depreprocessGo (badd acc y) t

/-- `DataWorker::Depreprocess`: first byte copied, then wrapped prefix
sums. -/
def Depreprocess : List Nat → List Nat
  | [] => []
  | y :: t => y % 256 :: depreprocessGo (y % 256) t

/-! ## RleCompressor (rle_compressor.cpp)

The compressor's mutable state is its output byte buffer
(`encoded_buff[0..encoded_index)`), the group byte being assembled
(`group`) and the pending payload bytes (`group_vec`).  Allocation
bookkeeping (`encoded_alloc`, `ReallocateBuffer`) does not affect the
emitted bytes and is not modelled. -/

/-- Compressor packing state: emitted bytes, current group byte,
pending payload vector. -/
structure RleBuf where
  out : List Nat
  group : Nat
  vec : List Nat
deriving DecidableEq, Repr

/-- `set_bit`: `byte |= (1UL << index)`. -/
def set_bit (byte index : Nat) : Nat := byte ||| (1 <<< index)

/-- `RleCompressor::appendToBuff` with `settings == NO_SETTINGS` (the
only way the source calls it): classify `val` via `counter` in the
group byte, push it unless `end_push`, and flush group byte plus
payload once 8 payload bytes are pending or on `end_push`. -/
def appendToBuff (st : RleBuf) (val : Nat) (counter end_push : Bool) : RleBuf :=
  let g := if counter then set_bit st.group st.vec.length else st.group
  let vec := if !end_push then st.vec ++ [val] else st.vec
  if vec.length = 8 ∨ end_push then
    { out := st.out ++ g :: vec, group := 0, vec := [] }
  else
    { out := st.out, group := g, vec := vec }

/-- Little-endian base-256 digit extraction, by structural recursion
on a fuel that dominates the digit count. -/
def digitsLEGo : Nat → Nat → List Nat
  | 0, _ => []
  | fuel + 1, m => if m = 0 then [] else m % 256 :: digitsLEGo fuel (m / 256)

/-- The `while(counter > 0) { push(counter & 0xFF); counter >>= 8; }`
loop of `RleCompressor::appendCounterValue` (little-endian digits). -/
def digitsLE (m : Nat) : List Nat := digitsLEGo m m

/-- The `(class, byte)` items that `RleCompressor::appendCounterValue`
feeds to `appendToBuff` for one run of `counter` copies of `val`:
counter fragments (run length 2 uses the literal `0x00` fragment,
longer runs the base-256 digits of `counter - 2` emitted back to
front), then the value byte. -/
def runItems (counter val : Nat) : List (Bool × Nat) :=
  if counter > 1 then
    ((if counter = 2 then [0] else digitsLE (counter - 2)).reverse.map
      (fun d => (true, d))) ++ [(false, val)]
  else [(false, val)]

/-- Feed a list of `(class, byte)` items through `appendToBuff`. -/
def pushItems (st : RleBuf) (items : List (Bool × Nat)) : RleBuf :=
  items.foldl (fun s cv => appendToBuff s cv.2 cv.1 false) st

/-- `RleCompressor::appendCounterValue`: emit the counter fragments
(when `counter > 1`) followed by the value byte.  The source resets
`counter` to 1 through its by-reference parameter; callers rely only on
that reset, so the state alone is returned. -/
def appendCounterValue (st : RleBuf) (val counter : Nat) : RleBuf :=
  pushItems st (runItems counter val)

/-- Core of both scanning loops: `pixel` is the current run's value,
`counter` its length so far, `rest` the pixels still to visit.  Equal
pixels extend the run, a differing pixel flushes the run, and the last
run is flushed after the loop. -/
def scanGo (st : RleBuf) (pixel counter : Nat) : List Nat → RleBuf
  | [] => appendCounterValue st pixel counter
  | p :: t =>
      if p = pixel then scanGo st pixel (counter + 1) t
      else scanGo (appendCounterValue st pixel counter) p 1 t

/-- Shared tail of `HorizontalScanning`/`VerticalScanning`: scan the
pixel sequence, then flush any partial group
(`appendToBuff(group_vec, group, UINT8_T_PADDING, false, true, ...)`).
The empty sequence (`width*height = 0`) is undefined behaviour in the
source (reads `buffer[0]` of an empty buffer) and is left out. -/
def scanAll (st : RleBuf) : List Nat → RleBuf
  | [] => st
  | p :: t =>
      let st' := scanGo st p 1 t
      if st'.vec.length > 0 then appendToBuff st' 0 false true else st'

/-- `RleCompressor::HorizontalScanning`: row-major scan is the buffer
in order. -/
def HorizontalScanning (st : RleBuf) (xs : List Nat) : RleBuf :=
  scanAll st xs

/-- Column-major pixel order `buffer[y * width + x]` for `x` outer,
`y` inner, as visited by `RleCompressor::VerticalScanning`. -/
def colMajor (width height : Nat) (xs : List Nat) : List Nat :=
  (List.range width).flatMap fun x =>
    (List.range height).map fun y => xs.getD (y * width + x) 0

/-- `RleCompressor::VerticalScanning`. -/
def VerticalScanning (st : RleBuf) (width height : Nat) (xs : List Nat) : RleBuf :=
  scanAll st (colMajor width height xs)

/-- Minimal big-endian byte strings: `vec_w`/`vec_h` of
`RleCompressor::appendSettingsToBuff` are built little-endian by
`while (v > 255) push(v & 255), v >>= 8` plus a final `push(v & 255)`,
and written back to front. -/
def minBytesLEGo : Nat → Nat → List Nat
  | 0, _ => []
  | fuel + 1, v => if v > 255 then v % 256 :: minBytesLEGo fuel (v / 256) else [v % 256]

/-- Wrapper with sufficient fuel: at least one byte is produced. -/
def minBytesLE (v : Nat) : List Nat := minBytesLEGo (v + 1) v

/-- `SCANNING_MASK`: settings bit 7, horizontal scan. -/
def SCANNING_MASK : Nat := 0x80

/-- `MODEL_MASK`: settings bit 6, differential model applied. -/
def MODEL_MASK : Nat := 0x40

/-- `RleCompressor::appendSettingsToBuff`: settings byte (base flags,
width byte count − 1 in bits 5–3, height byte count − 1 in bits 2–0)
followed by width and height in minimal big-endian bytes.  The
parameters are `uint32_t`, hence the `% 2^32`. -/
def appendSettingsToBuff (base width height : Nat) : List Nat :=
  let w := width % 2 ^ 32
  let h := height % 2 ^ 32
  let vw := minBytesLE w
  let vh := minBytesLE h
  let count_w := vw.length - 1
  let count_h := vh.length - 1
  let settings := (base ||| (count_w <<< 3)) ||| count_h
  settings :: (vw.reverse ++ vh.reverse)

/-- `RleCompressor::SequenceScanning`: header (horizontal bit, model
bit per `input_preprocessing`) followed by the horizontal scan. -/
def SequenceScanning (width height : Nat) (input_preprocessing : Bool)
    (xs : List Nat) : List Nat :=
  let settings := if input_preprocessing then SCANNING_MASK ||| MODEL_MASK
                  else SCANNING_MASK
  (HorizontalScanning ⟨appendSettingsToBuff settings width height, 0, []⟩ xs).out

/-- `RleCompressor::AdaptiveScanning`: run the horizontal scan and the
vertical scan each with its own header, keep the shorter stream
(ties go to vertical). -/
def AdaptiveScanning (width height : Nat) (input_preprocessing : Bool)
    (xs : List Nat) : List Nat :=
  let hsettings := if input_preprocessing then SCANNING_MASK ||| MODEL_MASK
                   else SCANNING_MASK
  let vsettings := if input_preprocessing then MODEL_MASK else 0
  let hbuf := (HorizontalScanning ⟨appendSettingsToBuff hsettings width height, 0, []⟩ xs).out
  let vbuf := (VerticalScanning ⟨appendSettingsToBuff vsettings width height, 0, []⟩
                width height xs).out
  if vbuf.length ≤ hbuf.length then vbuf else hbuf

/-! ## RleDecompressor (rle_decompressor.cpp)

Reader state is the input cursor `index`, the classifier cursor
`bit_index` and the current group byte `byte` (the locals threaded by
reference through `GetValCount`).  Out-of-range reads of the input
buffer (possible because the inner loop of `GetValCount` checks no
bound) are modelled by `List.getD _ _ 0`.  The counter accumulator is a
`size_t`, hence `% 2^64`. -/

/-- Reader cursor of `RleDecompressor`. -/
structure RdState where
  index : Nat
  bit : Nat
  byte : Nat
deriving DecidableEq, Repr

/-- Inner classifier loop of `RleDecompressor::GetValCount`: consume
classifier bits `bit, bit+1, …, 7` of `byte`.  A set bit accumulates a
counter fragment (`count = (count | buffer[index++]) << 8`), a clear
bit finishes the pair (`count = count >> 8 + 2` when a fragment was
seen, else `1`) with the next byte as value.  Returns the finished pair
with the new cursor, or the carried accumulator when the 8 classifier
bits ran out. -/
def getValBitsGo (buf : List Nat) (byte : Nat) :
    Nat → Nat → Nat → Nat → Bool → ((Nat × Nat) × RdState) ⊕ (Nat × Bool × Nat)
  | 0, _, index, count, count_bit => Sum.inr (count, count_bit, index)
  | rem + 1, bit, index, count, count_bit =>
      if byte.testBit bit then
        getValBitsGo buf byte rem (bit + 1) (index + 1)
          (((count ||| buf.getD index 0) <<< 8) % 2 ^ 64) true
      else
        Sum.inl ((if count_bit then count >>> 8 + 2 else 1, buf.getD index 0),
          ⟨index + 1, bit + 1, byte⟩)

/-- Wrapper running the classifier loop for the remaining
`8 - bit_index` bits (the `while (bit_index < UINT8_T_SIZE)` guard). -/
def getValBits (buf : List Nat) (byte : Nat) (bit index count : Nat)
    (count_bit : Bool) : ((Nat × Nat) × RdState) ⊕ (Nat × Bool × Nat) :=
  getValBitsGo buf byte (8 - bit) bit index count count_bit

/-- Outer loop of `RleDecompressor::GetValCount`: load a fresh group
byte whenever `bit_index` is 0, run the classifier loop, and loop with
`bit_index` reset when the group byte is exhausted.  `fuel` bounds the
number of group-byte reloads; every recursive call strictly advances
`index`, so any `fuel > size` is exact. -/
def getValCountGo (buf : List Nat) (size : Nat) :
    Nat → Nat → Nat → Nat → Nat → Bool → Option ((Nat × Nat) × RdState)
  | 0, _, _, _, _, _ => none
  | fuel + 1, index, bit, byte, count, count_bit =>
      if index < size then
        let byte' := if bit = 0 then buf.getD index 0 else byte
        let index' := if bit = 0 then index + 1 else index
        match getValBits buf byte' bit index' count count_bit with
        | Sum.inl r => some r
        | Sum.inr (count', count_bit', index'') =>
            getValCountGo buf size fuel index'' 0 byte' count' count_bit'
      else none

/-- `RleDecompressor::GetValCount`: next `(count, value)` pair from the
stream, or `none` at end of stream. -/
def GetValCount (buf : List Nat) (size : Nat) (st : RdState) :
    Option ((Nat × Nat) × RdState) :=
  getValCountGo buf size (size + 1) st.index st.bit st.byte 0 false

/-- All `(count, value)` pairs `GetValCount` yields from state `st`
(with explicit fuel; each pair consumes at least one byte). -/
def decodePairsGo (buf : List Nat) (size : Nat) :
    Nat → RdState → List (Nat × Nat)
  | 0, _ => []
  | fuel + 1, st =>
      match GetValCount buf size st with
      | none => []
      | some (p, st') => p :: decodePairsGo buf size fuel st'

/-- The full pair stream of an RLE payload starting at `st`. -/
def decodePairs (buf : List Nat) (size : Nat) (st : RdState) : List (Nat × Nat) :=
  decodePairsGo buf size (size + 1) st

/-- Loop body of `RleDecompressor::DecompressHorizontally`: writes
`count` copies of `val`; a pair overflowing `dec_buffer_alloc` is
truncated to the remaining capacity and decoding stops (successfully,
since the final index then equals the allocation).  Returns the decoded
bytes and the success flag `dec_buffer_index == dec_buffer_alloc`. -/
def decompHorizGo (buf : List Nat) (size alloc : Nat) :
    Nat → List Nat → RdState → List Nat × Bool
  | 0, out, _ => (out, false)
  | fuel + 1, out, st =>
      match GetValCount buf size st with
      | none => (out, out.length = alloc)
      | some ((count, val), st') =>
          if out.length + count > alloc then
            (out ++ List.replicate (alloc - out.length) val, true)
          else decompHorizGo buf size alloc fuel (out ++ List.replicate count val) st'

/-- `RleDecompressor::DecompressHorizontally` from the position just
after the header. -/
def DecompressHorizontally (buf : List Nat) (size alloc start : Nat) :
    List Nat × Bool :=
  decompHorizGo buf size alloc (size + 1) [] ⟨start, 0, 0⟩

/-- Inner write loop of `RleDecompressor::DecompressVertically`: write
`val` at `y * width + x` `count` times, advancing the column-major
cursor; an index reaching `image_size` aborts with failure.  Carries
`(x, y, last written index, buffer)`. -/
def vertWrite (width height image_size : Nat) (val : Nat) :
    Nat → Nat × Nat × Nat × List Nat → Option (Nat × Nat × Nat × List Nat)
  | 0, s => some s
  | count + 1, (x, y, _, out) =>
      let i := y * width + x
      if i ≥ image_size then none
      else
        let out' := out.set i val
        if y + 1 = height then
          vertWrite width height image_size val count (x + 1, 0, i, out')
        else
          vertWrite width height image_size val count (x, y + 1, i, out')

/-- Pair loop of `RleDecompressor::DecompressVertically`. -/
def decompVertGo (buf : List Nat) (size width height image_size : Nat) :
    Nat → Nat × Nat × Nat × List Nat → RdState → Option (Nat × List Nat)
  | 0, _, _ => none
  | fuel + 1, s, st =>
      match GetValCount buf size st with
      | none => some (s.2.2.1, s.2.2.2)
      | some ((count, val), st') =>
          match vertWrite width height image_size val count s with
          | none => none
          | some s' => decompVertGo buf size width height image_size fuel s' st'

/-- `RleDecompressor::DecompressVertically`: after the pair loop the
last written index must be `image_size - 1`.  The decompressed buffer
is `malloc`ed; unwritten bytes are modelled as 0. -/
def DecompressVertically (buf : List Nat) (size width height alloc start : Nat) :
    List Nat × Bool :=
  let image_size := width * height
  match decompVertGo buf size width height image_size (size + 1)
      (0, 0, 0, List.replicate alloc 0) ⟨start, 0, 0⟩ with
  | none => ([], false)
  | some (lastIdx, out) =>
      if lastIdx ≠ image_size - 1 then (out, false) else (out, true)

/-- `WIDTH_COUNT_MASK` bits 5–3 of the settings byte. -/
def WIDTH_COUNT_MASK : Nat := 0x38

/-- `HEIGHT_COUNT_MASK` bits 2–0 of the settings byte. -/
def HEIGHT_COUNT_MASK : Nat := 0x07

/-- The big-endian accumulation loop of `RleDecompressor::GetSize`:
`v |= buffer[i]` then `v <<= 8` for every byte but the last, in
`uint32_t` arithmetic. -/
def readBE32 (acc : Nat) : List Nat → Nat
  | [] => acc
  | [b] => acc ||| b
  | b :: rest => readBE32 (((acc ||| b) <<< 8) % 2 ^ 32) rest

/-- `RleDecompressor::GetSize`: read `count_w`/`count_h` from the
settings byte, check `size < count_h + count_w` (note: the settings
byte itself is not counted), then read width and height big-endian.
Returns `(width, height, index)` with `index` past the header. -/
def RleGetSize (buf : List Nat) (size : Nat) : Option (Nat × Nat × Nat) :=
  let b0 := buf.getD 0 0
  let count_w := (b0 &&& WIDTH_COUNT_MASK) >>> 3 + 1
  let count_h := (b0 &&& HEIGHT_COUNT_MASK) + 1
  if size < count_h + count_w then none
  else
    let width := readBE32 0 ((buf.drop 1).take count_w)
    let height := readBE32 0 ((buf.drop (1 + count_w)).take count_h)
    some (width, height, count_w + count_h + 1)

/-- `RleDecompressor::Decompress`: returns the decompressed image and
the model flag, or `none` on failure.  `dec_buffer_alloc` is computed
as `width * height` in `uint32_t` (hence `% 2^32`), while
`DecompressVertically` receives the `size_t` product. -/
def RleDecompress (buf : List Nat) (size : Nat) : Option (List Nat × Bool) :=
  if size = 0 then none
  else
    let b0 := buf.getD 0 0
    let horizontal := b0 &&& SCANNING_MASK ≠ 0
    let convert_from_model := b0 &&& MODEL_MASK ≠ 0
    match RleGetSize buf size with
    | none => none
    | some (width, height, start) =>
        let alloc := width * height % 2 ^ 32
        if horizontal then
          let (img, ok) := DecompressHorizontally buf size alloc start
          if ok then some (img, convert_from_model) else none
        else
          let (img, ok) := DecompressVertically buf size width height alloc start
          if ok then some (img, convert_from_model) else none

/-! ## Adaptive Huffman tree (huffman.hpp, huffman_coder.cpp, huffman_decoder.cpp)

The raw-pointer tree is embedded as an arena: node ids are positions in
a list, pointers are `Option Nat`.  `HuffmanCoder` and `HuffmanDecoder`
contain textually identical copies of `GenNode`, `InitTree`,
`AddSymbol`, `FindHighestBlockNode` and `SwapNodes` and of the
tree-update loop inside `Encode`/`Decode`; each is embedded once and
shared.  Node weights are `uint64_t` and indices `int32_t` in the
source; both stay far from their bounds (indices in `[3, 513]`, weights
at most twice the processed length), so they are plain `Nat` here. -/

/-- `N_VALUES`. -/
def N_VALUES : Nat := 256

/-- One tree node (`struct Node`). -/
structure HNode where
  left : Option Nat := none
  right : Option Nat := none
  parent : Option Nat := none
  index : Nat := 0
  weight : Nat := 0
  val : Nat := 0
deriving DecidableEq, Repr

/-- Tree arena with the `root` and `NYT` members. -/
structure HTree where
  nodes : List HNode
  root : Nat
  nyt : Nat
deriving DecidableEq, Repr

/-- Arena read (never out of range on states built by the embedding). -/
def getNode (t : HTree) (i : Nat) : HNode := t.nodes.getD i {}

/-- Arena in-place update. -/
def setNode (t : HTree) (i : Nat) (n : HNode) : HTree :=
  { t with nodes := t.nodes.set i n }

/-- `InitTree` (identical in coder and decoder): a single NYT root with
`index = N_VALUES * 2 + 1`. -/
def InitTree : HTree :=
  { nodes := [{ index := N_VALUES * 2 + 1 }], root := 0, nyt := 0 }

/-- `AddSymbol` (identical in coder and decoder up to the decoder's
extra `AddSymbolToBuffer`, kept at the call sites): split the NYT into
a right value leaf and a left fresh NYT, bump the leaf's and the old
NYT's weights, and return `(tree, old NYT id, new leaf id)`. -/
def AddSymbol (t : HTree) (symbol : Nat) : HTree × Nat × Nat :=
  let oldNyt := t.nyt
  let nytNode := getNode t oldNyt
  let rightId := t.nodes.length
  let leftId := t.nodes.length + 1
  let rightNode : HNode :=
    { val := symbol, index := nytNode.index - 1, weight := 1, parent := some oldNyt }
  let leftNode : HNode :=
    { index := nytNode.index - 2, weight := 0, parent := some oldNyt }
  let t' := { t with nodes := t.nodes ++ [rightNode, leftNode] }
  let t'' := setNode t' oldNyt
    { nytNode with right := some rightId, left := some leftId,
                   weight := nytNode.weight + 1 }
  ({ t'' with nyt := leftId }, oldNyt, rightId)

/-- `FindPathToRoot`: walk the parent pointers, recording `true` for a
right child.  The fuel (one per arena node on well-formed trees) only
guards the embedding against malformed parent chains. -/
def findPathGo (t : HTree) : Nat → Nat → List Bool
  | 0, _ => []
  | fuel + 1, i =>
      match (getNode t i).parent with
      | none => []
      | some p => ((getNode t p).right == some i) :: findPathGo t fuel p

/-- `FindPathToRoot` from node `i`. -/
def FindPathToRoot (t : HTree) (i : Nat) : List Bool :=
  findPathGo t t.nodes.length i

/-- BFS loop of `FindHighestBlockNode`: scan the queue (right child
enqueued before left), returning the first node whose `index ≥` and
`weight =` those of the argument. -/
def findHighestGo (t : HTree) (nIndex nWeight : Nat) :
    Nat → List Nat → Option Nat
  | 0, _ => none
  | _ + 1, [] => none
  | fuel + 1, tmp :: queue =>
      let node := getNode t tmp
      if node.index ≥ nIndex ∧ node.weight = nWeight then some tmp
      else
        let q1 := match node.right with
                  | some r => queue ++ [r]
                  | none => queue
        let q2 := match node.left with
                  | some l => q1 ++ [l]
                  | none => q1
        findHighestGo t nIndex nWeight fuel q2

/-- `FindHighestBlockNode` (identical in coder and decoder); falls back
to the argument when nothing is found ("only as insurance"). -/
def FindHighestBlockNode (t : HTree) (i : Nat) : Nat :=
  (findHighestGo t (getNode t i).index (getNode t i).weight
    (t.nodes.length + 1) [t.root]).getD i

/-- `SwapNodes` (identical in coder and decoder): exchange the two
nodes' indices, the child slots of their parents, and their parent
pointers; children travel with their nodes. -/
def SwapNodes (t : HTree) (n1 n2 : Nat) : HTree :=
  let node1 := getNode t n1
  let node2 := getNode t n2
  let tmp_index := node1.index
  let p1 := node1.parent.getD 0
  let p2 := node2.parent.getD 0
  let node1_side := ¬((getNode t p1).left = some n1)
  let node2_side := ¬((getNode t p2).left = some n2)
  let t := setNode t n1 { getNode t n1 with index := node2.index }
  let t := setNode t n2 { getNode t n2 with index := tmp_index }
  let t := if node1_side then setNode t p1 { getNode t p1 with right := some n2 }
           else setNode t p1 { getNode t p1 with left := some n2 }
  let t := if node2_side then setNode t p2 { getNode t p2 with right := some n1 }
           else setNode t p2 { getNode t p2 with left := some n1 }
  let t := setNode t n1 { getNode t n1 with parent := some p2 }
  setNode t n2 { getNode t n2 with parent := some p1 }

/-- The shared tree-update loop (`while (true) { … }` in
`HuffmanCoder::Encode` and `HuffmanDecoder::Decode`): swap with the
highest node of the block unless it is the node or its parent, bump the
weight, stop at the root, else move to the parent.  Fuel is one per
tree level on well-formed trees. -/
def updateGo (t : HTree) (node : Nat) : Nat → HTree
  | 0 => t
  | fuel + 1 =>
      let highest := FindHighestBlockNode t node
      let t' := if highest ≠ node ∧ (getNode t node).parent ≠ some highest then
                  SwapNodes t highest node
                else t
      let t'' := setNode t' node
        { getNode t' node with weight := (getNode t' node).weight + 1 }
      if t''.root = node then t''
      else
        match (getNode t'' node).parent with
        | none => t''
        | some p => updateGo t'' p fuel

/-- Run the update loop from `node`. -/
def UpdateTree (t : HTree) (node : Nat) : HTree :=
  updateGo t node (t.nodes.length + 1)

/-! ## Bit writer (HuffmanCoder's buffer/byte_index/bit_index)

The coder's buffer is `malloc`ed, zeroed, and only ever modified by
`buffer[byte_index] |= (v << bit_index)` with `(byte_index, bit_index)`
advancing monotonically, so it is embedded as the completed bytes
`out = buffer[0..byte_index)` plus the partial byte `cur =
buffer[byte_index]`. -/

/-- Writer state. -/
structure Writer where
  out : List Nat
  cur : Nat
  bit : Nat
deriving DecidableEq, Repr

/-- Write one bit at `(byte_index, bit_index)` and advance. -/
def writeBit (w : Writer) (b : Bool) : Writer :=
  let cur := if b then w.cur ||| (1 <<< w.bit) else w.cur
  if w.bit + 1 ≥ 8 then { out := w.out ++ [cur], cur := 0, bit := 0 }
  else { w with cur := cur, bit := w.bit + 1 }

/-- `HuffmanCoder::AddBits`: the bit vector is written in reverse
order. -/
def AddBits (w : Writer) (bits : List Bool) : Writer :=
  bits.reverse.foldl writeBit w

/-- `HuffmanCoder::AddByte`: bits of `byte` pushed LSB-first into the
vector, hence written MSB-first by `AddBits`. -/
def AddByte (w : Writer) (byte : Nat) : Writer :=
  AddBits w ((List.range 8).map byte.testBit)

/-- `HuffmanCoder::GetSize`: `byte_index`, plus one when a partial
byte is pending. -/
def writerSize (w : Writer) : Nat :=
  if w.bit = 0 then w.out.length else w.out.length + 1

/-- The `GetSize` bytes handed to the caller (`GetBuffer` up to
`GetSize`). -/
def writerBytes (w : Writer) : List Nat :=
  if w.bit = 0 then w.out else w.out ++ [w.cur]

/-! ## HuffmanCoder -/

/-- Coder state: tree, `leaf_nodes` symbol map, bit writer. -/
structure Coder where
  tree : HTree
  leaves : List (Option Nat)
  w : Writer
deriving DecidableEq, Repr

/-- Fresh coder (`HuffmanCoder::HuffmanCoder`). -/
def initCoder : Coder :=
  { tree := InitTree, leaves := List.replicate N_VALUES none,
    w := { out := [], cur := 0, bit := 0 } }

/-- One iteration of the `Encode` loop for input byte `b`: emit the
path to the symbol's leaf, or the path to the NYT followed by the
literal byte for a first occurrence (registering the new leaf in
`leaf_nodes`), then update the tree from the leaf (resp. the old
NYT). -/
def encodeStep (c : Coder) (b : Nat) : Coder :=
  match c.leaves.getD b none with
  | none =>
      let w := AddBits c.w (FindPathToRoot c.tree c.tree.nyt)
      let (t, oldNyt, leafId) := AddSymbol c.tree b
      let leaves := c.leaves.set b (some leafId)
      let w := AddByte w b
      { tree := UpdateTree t oldNyt, leaves := leaves, w := w }
  | some leafId =>
      let w := AddBits c.w (FindPathToRoot c.tree leafId)
      { tree := UpdateTree c.tree leafId, leaves := c.leaves, w := w }

/-- The `Encode` loop over the whole input. -/
def encodeLoop (input : List Nat) : Coder :=
  input.foldl encodeStep initCoder

/-- `SETTINGS_BIT_CHECK`: outer settings bit 3 (Huffman used). -/
def SETTINGS_BIT_CHECK : Nat := 0x08

/-- `HuffmanCoder::CompareWithRLE`: when the encoding grew beyond the
input, copy the input back verbatim (cursor at a byte boundary at
`size`) with settings byte 0; otherwise settings byte
`0x08 | padding`. -/
def CompareWithRLE (w : Writer) (input : List Nat) : Writer × Nat :=
  if writerSize w > input.length then
    ({ out := input, cur := 0, bit := 0 }, 0)
  else
    (w, (if w.bit = 0 then 0 else 8 - w.bit) ||| SETTINGS_BIT_CHECK)

/-- `HuffmanCoder::Encode`: encode, then arbitrate against
pass-through.  Returns the final writer and the outer settings byte. -/
def HuffmanEncode (input : List Nat) : Writer × Nat :=
  CompareWithRLE (encodeLoop input).w input

/-! ## HuffmanDecoder -/

/-- Decoder state: mirror tree, decoded output buffer
(`buffer`/`write_byte_index`), read cursor. -/
structure Decoder where
  tree : HTree
  out : List Nat
  readByte : Nat
  readBit : Nat
deriving DecidableEq, Repr

/-- `HuffmanDecoder::NextBit`: returns `(bit, state, end_of_buffer)`;
at `read_byte_index == size` the end flag is set instead. -/
def NextBit (buf : List Nat) (size : Nat) (d : Decoder) : Bool × Decoder × Bool :=
  if d.readByte = size then (false, d, true)
  else
    let res := (buf.getD d.readByte 0).testBit d.readBit
    if d.readBit + 1 ≥ 8 then
      (res, { d with readBit := 0, readByte := d.readByte + 1 }, false)
    else
      (res, { d with readBit := d.readBit + 1 }, false)

/-- `HuffmanDecoder::ReadSymbol`: read 8 bits MSB-first; `none` when
the buffer ends first. -/
def ReadSymbol (buf : List Nat) (size : Nat) : Decoder → Nat → Nat → Option (Nat × Decoder)
  | d, sym, 0 => some (sym, d)
  | d, sym, k + 1 =>
      let (b, d', eob) := NextBit buf size d
      if eob then none
      else ReadSymbol buf size d' (if b then sym ||| (1 <<< k) else sym) k

/-- `HuffmanDecoder::IsEnd`: the idiosyncratic stop rule
`read_bit_index + padding == 9` on the final byte. -/
def IsEnd (size padding : Nat) (d : Decoder) : Bool :=
  (d.readBit + padding == 9) && (size == d.readByte + 1)

/-- `HuffmanDecoder::IsExternalNode` (the argument is never null in the
embedding). -/
def IsExternalNode (t : HTree) (i : Nat) : Bool :=
  ((getNode t i).left == none) && ((getNode t i).right == none)

/-- Main decode loop of `HuffmanDecoder::Decode`, from current node
`node`.  Returns `none` on the two failure modes (absent child,
truncated NYT literal), `some` with the decoded bytes otherwise.  Fuel
decreases once per iteration; each symbol consumes at least one bit, so
`16 * size + 16` covers any input. -/
def decodeGo (buf : List Nat) (size : Nat) (padding : Nat) :
    Nat → Decoder → Nat → Option (List Nat)
  | 0, _, _ => none
  | fuel + 1, d, node =>
      if IsEnd size padding d then some d.out
      else if ¬IsExternalNode d.tree node then
        let (b, d', eob) := NextBit buf size d
        if eob then some d'.out
        else
          match if b then (getNode d.tree node).right else (getNode d.tree node).left with
          | none => none
          | some child => decodeGo buf size padding fuel d' child
      else if node = d.tree.nyt then
        match ReadSymbol buf size d 0 8 with
        | none => none
        | some (sym, d') =>
            let (t, oldNyt, _) := AddSymbol d'.tree sym
            let t' := UpdateTree t oldNyt
            decodeGo buf size padding fuel
              { d' with tree := t', out := d'.out ++ [sym] } t'.root
      else
        let t' := UpdateTree d.tree node
        decodeGo buf size padding fuel
          { d with tree := t', out := d.out ++ [(getNode d.tree node).val] } t'.root

/-- `HuffmanDecoder::Decode` over the whole input buffer (settings byte
included): pass-through copy unless `size > 1` and settings bit 3 is
set, else bit-decode against the mirror tree. -/
def HuffmanDecode (buf : List Nat) (size : Nat) : Option (List Nat) :=
  if size > 1 ∧ (buf.getD 0 0) &&& SETTINGS_BIT_CHECK ≠ 0 then
    let padding := (buf.getD 0 0) &&& 0x07
    decodeGo buf size padding (16 * size + 16)
      { tree := InitTree, out := [], readByte := 1, readBit := 0 } 0
  else
    some ((buf.drop 1).take (size - 1))

/-! ## Pipeline orchestration (main.cpp) -/

/-- Compression pipeline: optional differential preprocess, RLE
(sequence or adaptive scanning), Huffman encoding.  The written file is
the outer settings byte followed by the coder's `GetSize` bytes; the
model returns that whole byte sequence. -/
def compressPipeline (xs : List Nat) (width height : Nat)
    (model adaptive : Bool) : List Nat :=
  let xs' := if model then Preprocess xs else xs
  let rle := if adaptive then AdaptiveScanning width height model xs'
             else SequenceScanning width height model xs'
  let (w, settings) := HuffmanEncode rle
  settings :: writerBytes w

/-- Decompression pipeline: Huffman decode the whole file, RLE
decompress, and reverse the differential model when the RLE settings
byte requests it.  `none` models a non-zero exit code. -/
def decompressPipeline (file : List Nat) : Option (List Nat) :=
  match HuffmanDecode file file.length with
  | none => none
  | some rleStream =>
      match RleDecompress rleStream rleStream.length with
      | none => none
      | some (img, convert_from_model) =>
          some (if convert_from_model then Depreprocess img else img)

/-! ## Derived descriptions used by the specification's properties -/

/-- The run-item sequences produced while scanning `rest` with current
run `(pixel, counter)`: the item trace of `scanGo`. -/
def scanItems (pixel counter : Nat) : List Nat → List (Bool × Nat)
  | [] => runItems counter pixel
  | p :: t =>
      if p = pixel then scanItems pixel (counter + 1) t
      else runItems counter pixel ++ scanItems p 1 t

/-- Big-endian value of a base-256 digit string. -/
def beVal (ds : List Nat) : Nat := ds.foldl (fun a d => a * 256 + d) 0

/-- The counter fragments of `runItems`, in emission (big-endian)
order: none for a singleton run, the literal `0x00` for a run of two,
the reversed base-256 digits of `counter - 2` otherwise. -/
def runDigits (counter : Nat) : List Nat :=
  if counter > 1 then (if counter = 2 then [0] else digitsLE (counter - 2)).reverse
  else []

/-- Sum of the `count` components of a decoded pair list. -/
def sumCounts (ps : List (Nat × Nat)) : Nat := (ps.map Prod.fst).sum

/-- Breadth-first traversal with the right child enqueued before the
left, exactly as the queue of `FindHighestBlockNode` visits the tree
(the order the specification's property test prescribes). -/
def bfsGo (t : HTree) : Nat → List Nat → List Nat
  | 0, _ => []
  | _ + 1, [] => []
  | fuel + 1, i :: q =>
      let n := getNode t i
      let q1 := match n.right with | some r => q ++ [r] | none => q
      let q2 := match n.left with | some l => q1 ++ [l] | none => q1
      i :: bfsGo t fuel q2

/-- All node ids in BFS (right-first) order from the root. -/
def bfsIds (t : HTree) : List Nat := bfsGo t (t.nodes.length + 1) [t.root]

/-- Adjacent strict decrease along a list. -/
def strictDecr : List Nat → Bool
  | [] => true
  | [_] => true
  | a :: b :: t => (b < a) && strictDecr (b :: t)

/-- Invariant (a): node indices strictly decrease in BFS order. -/
def invA (t : HTree) : Bool :=
  strictDecr ((bfsIds t).map fun i => (getNode t i).index)

/-- Invariant (b): strictly higher weight implies strictly higher
index, over all pairs of tree nodes. -/
def invB (t : HTree) : Bool :=
  (bfsIds t).all fun i => (bfsIds t).all fun j =>
    !((getNode t i).weight < (getNode t j).weight)
      || ((getNode t i).index < (getNode t j).index)

/-- Invariant (c): every internal node has both children. -/
def invC (t : HTree) : Bool :=
  (bfsIds t).all fun i =>
    ((getNode t i).left == none) == ((getNode t i).right == none)

/-- Invariant (d): exactly one node has weight 0, and it is the node
the NYT pointer references. -/
def invD (t : HTree) : Bool :=
  ((bfsIds t).filter fun i => (getNode t i).weight == 0) == [t.nyt]

/-! # Theorems -/

theorem preprocessGo_depreprocessGo (xs : List Nat) :
    ∀ p, (∀ b ∈ xs, b < 256) → p < 256 →
      depreprocessGo p (preprocessGo p xs) = xs := by
  induction xs with
  | nil => intro p _ _; rfl
  | cons x t ih =>
      intro p hb hp
      have hx : x < 256 := hb x (List.mem_cons_self x t)
      have hbad : badd p (bsub x p) = x := by
        unfold badd bsub
        omega
      simp only [preprocessGo, depreprocessGo, hbad]
      exact congrArg (x :: ·) (ih x (fun b hbm => hb b (List.mem_cons_of_mem _ hbm)) hx)

/-- C8: for every byte sequence, the inverse differential transform
(`Depreprocess`, wrapped prefix sum) applied to the differential
transform (`Preprocess`, wrapped adjacent difference) restores the
sequence, all arithmetic being unsigned 8-bit wraparound. -/
theorem claim_C8 (xs : List Nat) (h : ∀ b ∈ xs, b < 256) :
    Depreprocess (Preprocess xs) = xs := by
  cases xs with
  | nil => rfl
  | cons x t =>
      have hx : x < 256 := h x (List.mem_cons_self x t)
      have hxm : x % 256 = x := Nat.mod_eq_of_lt hx
      simp only [Preprocess, Depreprocess, hxm]
      exact congrArg (x :: ·)
        (preprocessGo_depreprocessGo t x
          (fun b hb => h b (List.mem_cons_of_mem _ hb)) hx)

theorem claim_C8_witness :
    (∀ b ∈ [65, 3, 200], b < 256) ∧
      Depreprocess (Preprocess [65, 3, 200]) = [65, 3, 200] :=
  ⟨by decide, claim_C8 [65, 3, 200] (by decide)⟩

/-- C10: a one-byte input (just the outer settings byte) makes
`HuffmanDecoder::Decode` take the pass-through branch whatever that
byte is, return success, and produce empty output. -/
theorem claim_C10 (s : Nat) : HuffmanDecode [s] 1 = some [] := by
  simp [HuffmanDecode]

/-- C1: the round-trip `decompress(compress(x))` fails on the code.
For `x = [0x00]`, `W = H = 1`, `model = false`, `adaptive = true`, the
compressor picks the vertical scan, the Huffman stage ends with one
padding bit, and the decoder's stop rule misses: it consumes the
padding bit, walks to an external node and emits a spurious extra
symbol, after which the vertical RLE reconstruction fails.  The
pipeline returns failure instead of `x`. -/
theorem claim_C1_bug :
    decompressPipeline (compressPipeline [0] 1 1 false true) = none := by
  have h1 : compressPipeline [0] 1 1 false true = [9, 0, 0, 127] := by decide
  have h2 : decompressPipeline [9, 0, 0, 127] = none := by decide
  rw [h1, h2]

set_option maxHeartbeats 1000000 in
set_option maxRecDepth 8192 in
/-- C2: after the sixth symbol of `HuffmanCoder::Encode` on input
`[3, 2, 1, 0, 0, 0]`, the BFS node indices are not strictly decreasing
(invariant (a) fails), while invariants (b), (c) and (d) still hold
there.  The proof evaluates the six encode steps one literal state at
a time. -/
theorem claim_C2_bug :
    invA (encodeLoop [3, 2, 1, 0, 0, 0]).tree = false ∧
      invB (encodeLoop [3, 2, 1, 0, 0, 0]).tree = true ∧
      invC (encodeLoop [3, 2, 1, 0, 0, 0]).tree = true ∧
      invD (encodeLoop [3, 2, 1, 0, 0, 0]).tree = true := by
  have s1 : encodeStep initCoder 3 =
      ⟨⟨[⟨some 2, some 1, none, 513, 2, 0⟩, ⟨none, none, some 0, 512, 1, 3⟩,
         ⟨none, none, some 0, 511, 0, 0⟩], 0, 2⟩,
       (List.replicate 256 (none : Option Nat)).set 3 (some 1),
       ⟨[192], 0, 0⟩⟩ := by decide
  have s2 : encodeStep
      ⟨⟨[⟨some 2, some 1, none, 513, 2, 0⟩, ⟨none, none, some 0, 512, 1, 3⟩,
         ⟨none, none, some 0, 511, 0, 0⟩], 0, 2⟩,
       (List.replicate 256 (none : Option Nat)).set 3 (some 1),
       ⟨[192], 0, 0⟩⟩ 2 =
      ⟨⟨[⟨some 1, some 2, none, 513, 3, 0⟩, ⟨none, none, some 0, 511, 1, 3⟩,
         ⟨some 4, some 3, some 0, 512, 2, 0⟩, ⟨none, none, some 2, 510, 1, 2⟩,
         ⟨none, none, some 2, 509, 0, 0⟩], 0, 4⟩,
       ((List.replicate 256 (none : Option Nat)).set 3 (some 1)).set 2 (some 3),
       ⟨[192, 128], 0, 1⟩⟩ := by decide
  have s3 : encodeStep
      ⟨⟨[⟨some 1, some 2, none, 513, 3, 0⟩, ⟨none, none, some 0, 511, 1, 3⟩,
         ⟨some 4, some 3, some 0, 512, 2, 0⟩, ⟨none, none, some 2, 510, 1, 2⟩,
         ⟨none, none, some 2, 509, 0, 0⟩], 0, 4⟩,
       ((List.replicate 256 (none : Option Nat)).set 3 (some 1)).set 2 (some 3),
       ⟨[192, 128], 0, 1⟩⟩ 1 =
      ⟨⟨[⟨some 4, some 2, none, 513, 4, 0⟩, ⟨none, none, some 2, 509, 1, 3⟩,
         ⟨some 1, some 3, some 0, 512, 2, 0⟩, ⟨none, none, some 2, 510, 1, 2⟩,
         ⟨some 6, some 5, some 0, 511, 2, 0⟩, ⟨none, none, some 4, 508, 1, 1⟩,
         ⟨none, none, some 4, 507, 0, 0⟩], 0, 6⟩,
       (((List.replicate 256 (none : Option Nat)).set 3 (some 1)).set 2
         (some 3)).set 1 (some 5),
       ⟨[192, 128, 2], 4, 3⟩⟩ := by decide
  have s4 : encodeStep
      ⟨⟨[⟨some 4, some 2, none, 513, 4, 0⟩, ⟨none, none, some 2, 509, 1, 3⟩,
         ⟨some 1, some 3, some 0, 512, 2, 0⟩, ⟨none, none, some 2, 510, 1, 2⟩,
         ⟨some 6, some 5, some 0, 511, 2, 0⟩, ⟨none, none, some 4, 508, 1, 1⟩,
         ⟨none, none, some 4, 507, 0, 0⟩], 0, 6⟩,
       (((List.replicate 256 (none : Option Nat)).set 3 (some 1)).set 2
         (some 3)).set 1 (some 5),
       ⟨[192, 128, 2], 4, 3⟩⟩ 0 =
      ⟨⟨[⟨some 4, some 2, none, 513, 5, 0⟩, ⟨none, none, some 2, 509, 1, 3⟩,
         ⟨some 1, some 6, some 0, 512, 3, 0⟩, ⟨none, none, some 4, 507, 1, 2⟩,
         ⟨some 3, some 5, some 0, 511, 2, 0⟩, ⟨none, none, some 4, 508, 1, 1⟩,
         ⟨some 8, some 7, some 2, 510, 2, 0⟩, ⟨none, none, some 6, 506, 1, 0⟩,
         ⟨none, none, some 6, 505, 0, 0⟩], 0, 8⟩,
       ((((List.replicate 256 (none : Option Nat)).set 3 (some 1)).set 2
         (some 3)).set 1 (some 5)).set 0 (some 7),
       ⟨[192, 128, 2, 4], 0, 5⟩⟩ := by decide
  have s5 : encodeStep
      ⟨⟨[⟨some 4, some 2, none, 513, 5, 0⟩, ⟨none, none, some 2, 509, 1, 3⟩,
         ⟨some 1, some 6, some 0, 512, 3, 0⟩, ⟨none, none, some 4, 507, 1, 2⟩,
         ⟨some 3, some 5, some 0, 511, 2, 0⟩, ⟨none, none, some 4, 508, 1, 1⟩,
         ⟨some 8, some 7, some 2, 510, 2, 0⟩, ⟨none, none, some 6, 506, 1, 0⟩,
         ⟨none, none, some 6, 505, 0, 0⟩], 0, 8⟩,
       ((((List.replicate 256 (none : Option Nat)).set 3 (some 1)).set 2
         (some 3)).set 1 (some 5)).set 0 (some 7),
       ⟨[192, 128, 2, 4], 0, 5⟩⟩ 0 =
      ⟨⟨[⟨some 4, some 2, none, 513, 6, 0⟩, ⟨none, none, some 6, 506, 1, 3⟩,
         ⟨some 7, some 6, some 0, 512, 4, 0⟩, ⟨none, none, some 4, 507, 1, 2⟩,
         ⟨some 3, some 5, some 0, 511, 2, 0⟩, ⟨none, none, some 4, 508, 1, 1⟩,
         ⟨some 8, some 1, some 2, 510, 2, 0⟩, ⟨none, none, some 2, 509, 2, 0⟩,
         ⟨none, none, some 6, 505, 0, 0⟩], 0, 8⟩,
       ((((List.replicate 256 (none : Option Nat)).set 3 (some 1)).set 2
         (some 3)).set 1 (some 5)).set 0 (some 7),
       ⟨[192, 128, 2, 4, 224], 0, 0⟩⟩ := by decide
  have s6 : encodeStep
      ⟨⟨[⟨some 4, some 2, none, 513, 6, 0⟩, ⟨none, none, some 6, 506, 1, 3⟩,
         ⟨some 7, some 6, some 0, 512, 4, 0⟩, ⟨none, none, some 4, 507, 1, 2⟩,
         ⟨some 3, some 5, some 0, 511, 2, 0⟩, ⟨none, none, some 4, 508, 1, 1⟩,
         ⟨some 8, some 1, some 2, 510, 2, 0⟩, ⟨none, none, some 2, 509, 2, 0⟩,
         ⟨none, none, some 6, 505, 0, 0⟩], 0, 8⟩,
       ((((List.replicate 256 (none : Option Nat)).set 3 (some 1)).set 2
         (some 3)).set 1 (some 5)).set 0 (some 7),
       ⟨[192, 128, 2, 4, 224], 0, 0⟩⟩ 0 =
      ⟨⟨[⟨some 7, some 2, none, 513, 7, 0⟩, ⟨none, none, some 6, 506, 1, 3⟩,
         ⟨some 4, some 6, some 0, 512, 4, 0⟩, ⟨none, none, some 4, 507, 1, 2⟩,
         ⟨some 3, some 5, some 2, 509, 2, 0⟩, ⟨none, none, some 4, 508, 1, 1⟩,
         ⟨some 8, some 1, some 2, 510, 2, 0⟩, ⟨none, none, some 0, 511, 3, 0⟩,
         ⟨none, none, some 6, 505, 0, 0⟩], 0, 8⟩,
       ((((List.replicate 256 (none : Option Nat)).set 3 (some 1)).set 2
         (some 3)).set 1 (some 5)).set 0 (some 7),
       ⟨[192, 128, 2, 4, 224], 1, 2⟩⟩ := by decide
  have hloop : encodeLoop [3, 2, 1, 0, 0, 0] =
      ⟨⟨[⟨some 7, some 2, none, 513, 7, 0⟩, ⟨none, none, some 6, 506, 1, 3⟩,
         ⟨some 4, some 6, some 0, 512, 4, 0⟩, ⟨none, none, some 4, 507, 1, 2⟩,
         ⟨some 3, some 5, some 2, 509, 2, 0⟩, ⟨none, none, some 4, 508, 1, 1⟩,
         ⟨some 8, some 1, some 2, 510, 2, 0⟩, ⟨none, none, some 0, 511, 3, 0⟩,
         ⟨none, none, some 6, 505, 0, 0⟩], 0, 8⟩,
       ((((List.replicate 256 (none : Option Nat)).set 3 (some 1)).set 2
         (some 3)).set 1 (some 5)).set 0 (some 7),
       ⟨[192, 128, 2, 4, 224], 1, 2⟩⟩ := by
    simp only [encodeLoop, List.foldl, s1, s2, s3, s4, s5, s6]
  rw [hloop]
  exact ⟨by decide, by decide, by decide, by decide⟩

theorem writeBit_bit_lt (w : Writer) (b : Bool) : (writeBit w b).bit < 8 := by
  unfold writeBit
  by_cases h : w.bit + 1 ≥ 8
  · simp [h]
  · simp [h]; omega

theorem foldl_writeBit_bit_lt (bits : List Bool) :
    ∀ w : Writer, w.bit < 8 → (bits.foldl writeBit w).bit < 8 := by
  induction bits with
  | nil => intro w h; exact h
  | cons b t ih => intro w h; exact ih (writeBit w b) (writeBit_bit_lt w b)

theorem AddBits_bit_lt (w : Writer) (bits : List Bool) (h : w.bit < 8) :
    (AddBits w bits).bit < 8 :=
  foldl_writeBit_bit_lt bits.reverse w h

theorem encodeStep_bit_lt (c : Coder) (b : Nat) (h : c.w.bit < 8) :
    (encodeStep c b).w.bit < 8 := by
  unfold encodeStep
  cases c.leaves.getD b none with
  | none => exact AddBits_bit_lt _ _ (AddBits_bit_lt _ _ h)
  | some leafId => exact AddBits_bit_lt _ _ h

theorem encodeLoop_bit_lt (input : List Nat) : (encodeLoop input).w.bit < 8 := by
  unfold encodeLoop
  have h : ∀ (c : Coder), c.w.bit < 8 → (input.foldl encodeStep c).w.bit < 8 := by
    induction input with
    | nil => intro c h; exact h
    | cons b t ih => intro c h; exact ih (encodeStep c b) (encodeStep_bit_lt c b h)
  exact h initCoder (by decide)

/-- C3: after `HuffmanCoder::Encode`, when the encoded size exceeds the
input size the final writer holds a verbatim copy of the input with the
bit cursor at a byte boundary at the input size and the outer settings
byte is `0x00`; otherwise the settings byte is `0x08` OR'd with the
padding `(8 - bit_index) mod 8`.  Either way the reported output size
never exceeds the input size. -/
theorem claim_C3 (input : List Nat) :
    (if writerSize (encodeLoop input).w > input.length then
        (HuffmanEncode input).1.out = input ∧ (HuffmanEncode input).1.bit = 0 ∧
          (HuffmanEncode input).1.out.length = input.length ∧
          (HuffmanEncode input).2 = 0
      else (HuffmanEncode input).2
          = SETTINGS_BIT_CHECK ||| ((8 - (encodeLoop input).w.bit) % 8)) ∧
      writerSize (HuffmanEncode input).1 ≤ input.length := by
  have hb : (encodeLoop input).w.bit < 8 := encodeLoop_bit_lt input
  unfold HuffmanEncode CompareWithRLE
  by_cases h : writerSize (encodeLoop input).w > input.length
  · rw [if_pos h, if_pos h]
    exact ⟨⟨rfl, rfl, rfl, rfl⟩, by simp [writerSize]⟩
  · rw [if_neg h, if_neg h]
    constructor
    · by_cases hz : (encodeLoop input).w.bit = 0
      · rw [if_pos hz, hz]
        simp [SETTINGS_BIT_CHECK]
      · rw [if_neg hz]
        have : (8 - (encodeLoop input).w.bit) % 8 = 8 - (encodeLoop input).w.bit :=
          Nat.mod_eq_of_lt (by omega)
        rw [this, Nat.lor_comm]
    · show writerSize (encodeLoop input).w ≤ input.length
      omega

theorem digitsLEGo_zero : ∀ fuel, digitsLEGo fuel 0 = [] := by
  intro fuel; cases fuel <;> rfl

theorem digitsLEGo_congr : ∀ fuel₁ fuel₂ m, m ≤ fuel₁ → m ≤ fuel₂ →
    digitsLEGo fuel₁ m = digitsLEGo fuel₂ m := by
  intro fuel₁
  induction fuel₁ with
  | zero =>
      intro fuel₂ m h₁ _
      have : m = 0 := Nat.le_zero.mp h₁
      subst this
      rw [digitsLEGo_zero, digitsLEGo_zero]
  | succ f ih =>
      intro fuel₂ m h₁ h₂
      by_cases hm : m = 0
      · subst hm; rw [digitsLEGo_zero, digitsLEGo_zero]
      · obtain ⟨f₂, rfl⟩ : ∃ f₂, fuel₂ = f₂ + 1 :=
          ⟨fuel₂ - 1, by omega⟩
        simp only [digitsLEGo, hm, if_neg]
        have hlt : m / 256 < m := Nat.div_lt_self (Nat.pos_of_ne_zero hm) (by omega)
        rw [ih f₂ (m / 256) (by omega) (by omega)]

theorem digitsLE_eq (m : Nat) :
    digitsLE m = if m = 0 then [] else m % 256 :: digitsLE (m / 256) := by
  by_cases hm : m = 0
  · subst hm; rfl
  · unfold digitsLE
    obtain ⟨m', rfl⟩ : ∃ m', m = m' + 1 := ⟨m - 1, by omega⟩
    rw [if_neg hm]
    show (if m' + 1 = 0 then [] else (m' + 1) % 256 :: digitsLEGo m' ((m' + 1) / 256)) = _
    rw [if_neg hm]
    have hlt : (m' + 1) / 256 < m' + 1 := Nat.div_lt_self (by omega) (by omega)
    rw [digitsLEGo_congr m' ((m' + 1) / 256) ((m' + 1) / 256) (by omega) (Nat.le_refl _)]

theorem digitsLE_lt256 : ∀ m, ∀ d ∈ digitsLE m, d < 256 := by
  intro m
  induction m using Nat.strong_induction_on with
  | _ m ih =>
      rw [digitsLE_eq]
      by_cases hm : m = 0
      · simp [hm]
      · rw [if_neg hm]
        intro d hd
        rcases List.mem_cons.mp hd with h | h
        · subst h; exact Nat.mod_lt _ (by omega)
        · exact ih (m / 256) (Nat.div_lt_self (Nat.pos_of_ne_zero hm) (by omega)) d h

theorem beVal_append (xs : List Nat) (d : Nat) :
    beVal (xs ++ [d]) = beVal xs * 256 + d := by
  simp [beVal, List.foldl_append]

theorem beVal_digitsLE : ∀ m, beVal (digitsLE m).reverse = m := by
  intro m
  induction m using Nat.strong_induction_on with
  | _ m ih =>
      rw [digitsLE_eq]
      by_cases hm : m = 0
      · simp [hm, beVal]
      · rw [if_neg hm, List.reverse_cons, beVal_append,
          ih (m / 256) (Nat.div_lt_self (Nat.pos_of_ne_zero hm) (by omega))]
        omega

theorem digitsLE_length : ∀ m j, m < 256 ^ j → (digitsLE m).length ≤ j := by
  intro m
  induction m using Nat.strong_induction_on with
  | _ m ih =>
      intro j hj
      rw [digitsLE_eq]
      by_cases hm : m = 0
      · simp [hm]
      · rw [if_neg hm]
        obtain ⟨j', rfl⟩ : ∃ j', j = j' + 1 := by
          refine ⟨j - 1, ?_⟩
          rcases Nat.eq_zero_or_pos j with h | h
          · subst h; simp at hj; omega
          · omega
        simp only [List.length_cons]
        have hdd : m / 256 < 256 ^ j' := by
          apply Nat.div_lt_of_lt_mul
          rw [Nat.mul_comm]
          exact hj.trans_le (le_of_eq (Nat.pow_succ ..))
        have := ih (m / 256) (Nat.div_lt_self (Nat.pos_of_ne_zero hm) (by omega)) j' hdd
        omega

theorem digitsLE_reverse_head : ∀ m, m ≠ 0 →
    ∃ hd tl, (digitsLE m).reverse = hd :: tl ∧ hd ≠ 0 := by
  intro m
  induction m using Nat.strong_induction_on with
  | _ m ih =>
      intro hm
      rw [digitsLE_eq, if_neg hm, List.reverse_cons]
      by_cases hq : m / 256 = 0
      · rw [hq, digitsLE_eq]
        refine ⟨m % 256, [], by simp, ?_⟩
        have : m < 256 := by omega
        omega
      · obtain ⟨hd, tl, heq, hne⟩ :=
          ih (m / 256) (Nat.div_lt_self (Nat.pos_of_ne_zero hm) (by omega)) hq
        exact ⟨hd, tl ++ [m % 256], by rw [heq]; rfl, hne⟩

theorem beVal_lt (xs : List Nat) (h : ∀ d ∈ xs, d < 256) :
    beVal xs < 256 ^ xs.length := by
  induction xs using List.reverseRecOn with
  | nil => simp [beVal]
  | append_singleton xs d ih =>
      rw [beVal_append]
      have h₁ : beVal xs < 256 ^ xs.length :=
        ih (fun e he => h e (List.mem_append_left _ he))
      have h₂ : d < 256 := h d (List.mem_append_right _ (List.mem_singleton_self d))
      simp only [List.length_append, List.length_singleton]
      calc beVal xs * 256 + d < (beVal xs + 1) * 256 := by omega
        _ ≤ 256 ^ xs.length * 256 := Nat.mul_le_mul_right _ h₁
        _ = 256 ^ (xs.length + 1) := (Nat.pow_succ ..).symm

theorem pushItems_append (st : RleBuf) (a b : List (Bool × Nat)) :
    pushItems st (a ++ b) = pushItems (pushItems st a) b :=
  List.foldl_append ..

theorem runItems_eq (n v : Nat) :
    runItems n v = (runDigits n).map (fun d => (true, d)) ++ [(false, v)] := by
  unfold runItems runDigits
  by_cases h : n > 1
  · rw [if_pos h, if_pos h]
  · rw [if_neg h, if_neg h]; rfl

theorem bitblock (j m : Nat) :
    (1 <<< j) ||| ((2 ^ m - 1) <<< (j + 1)) = (2 ^ (m + 1) - 1) <<< j := by
  have h1 : (1 : Nat) <<< j = 2 ^ j := by rw [Nat.shiftLeft_eq, Nat.one_mul]
  have h2 : (2 ^ m - 1) <<< (j + 1) = 2 ^ (j + 1) * (2 ^ m - 1) := by
    rw [Nat.shiftLeft_eq, Nat.mul_comm]
  have h3 : (2 ^ (m + 1) - 1) <<< j = 2 ^ (j + 1) * (2 ^ m - 1) + 2 ^ j := by
    rw [Nat.shiftLeft_eq, Nat.mul_comm]
    have hp : 1 ≤ 2 ^ m := Nat.one_le_two_pow
    have e : 2 ^ (m + 1) - 1 = 2 * (2 ^ m - 1) + 1 := by
      rw [Nat.pow_succ]
      omega
    rw [e, Nat.pow_succ]
    ring
  calc (1 <<< j) ||| ((2 ^ m - 1) <<< (j + 1))
      = 2 ^ (j + 1) * (2 ^ m - 1) ||| 2 ^ j := by rw [h1, h2, Nat.lor_comm]
    _ = 2 ^ (j + 1) * (2 ^ m - 1) + 2 ^ j :=
        (Nat.mul_add_lt_is_or (Nat.pow_lt_pow_succ (by omega)) _).symm
    _ = (2 ^ (m + 1) - 1) <<< j := h3.symm

theorem pushItems_counters : ∀ (ds : List Nat) (st : RleBuf),
    st.vec.length + ds.length ≤ 7 →
    pushItems st (ds.map fun d => (true, d)) =
      ⟨st.out, st.group ||| ((2 ^ ds.length - 1) <<< st.vec.length),
        st.vec ++ ds⟩ := by
  intro ds
  induction ds with
  | nil =>
      intro st _
      simp [pushItems]
  | cons d ds ih =>
      intro st hlen
      have hlen1 : st.vec.length + 1 ≤ 7 := by
        simp only [List.length_cons] at hlen; omega
      simp only [List.map_cons, pushItems, List.foldl_cons]
      have hstep : appendToBuff st d true false
          = ⟨st.out, set_bit st.group st.vec.length, st.vec ++ [d]⟩ := by
        unfold appendToBuff
        have hc : ¬(((st.vec ++ [d]).length = 8) ∨ (false : Bool)) := by
          simp only [List.length_append, List.length_singleton,
            Bool.false_eq_true, or_false]
          omega
        simp only [Bool.not_false, if_true, if_neg hc]
      rw [hstep]
      have hrec := ih ⟨st.out, set_bit st.group st.vec.length, st.vec ++ [d]⟩
        (by simp at hlen ⊢; omega)
      simp only [pushItems] at hrec
      rw [hrec]
      have hlf : (st.vec ++ [d]).length = st.vec.length + 1 := by simp
      have hgroup : set_bit st.group st.vec.length
            ||| ((2 ^ ds.length - 1) <<< (st.vec.length + 1))
          = st.group ||| ((2 ^ (ds.length + 1) - 1) <<< st.vec.length) := by
        unfold set_bit
        rw [Nat.lor_assoc, bitblock]
      rw [hlf, hgroup, List.append_assoc]
      rfl

theorem appendToBuff_end (st : RleBuf) (v0 : Nat) :
    appendToBuff st v0 false true = ⟨st.out ++ st.group :: st.vec, 0, []⟩ := by
  simp [appendToBuff]

theorem scanGo_replicate : ∀ (m : Nat) (st : RleBuf) (p c : Nat),
    scanGo st p c (List.replicate m p) = appendCounterValue st p (c + m) := by
  intro m
  induction m with
  | zero => intro st p c; rfl
  | succ m ih =>
      intro st p c
      rw [List.replicate_succ]
      show scanGo st p c (p :: List.replicate m p) = _
      simp only [scanGo, if_pos]
      rw [ih]
      have : c + 1 + m = c + (m + 1) := by omega
      rw [this]

theorem scan_const_stream (n v : Nat) (hn : 1 ≤ n)
    (hk : (runDigits n).length ≤ 7) :
    (scanAll ⟨[], 0, []⟩ (List.replicate n v)).out
      = (2 ^ (runDigits n).length - 1) :: (runDigits n ++ [v]) := by
  obtain ⟨n', rfl⟩ : ∃ n', n = n' + 1 := ⟨n - 1, by omega⟩
  rw [List.replicate_succ]
  have hgo : scanGo ⟨[], 0, []⟩ v 1 (List.replicate n' v)
      = pushItems (pushItems ⟨[], 0, []⟩
          ((runDigits (n' + 1)).map fun d => (true, d))) [(false, v)] := by
    rw [scanGo_replicate]
    show appendCounterValue ⟨[], 0, []⟩ v (1 + n') = _
    rw [Nat.add_comm 1 n']
    show pushItems ⟨[], 0, []⟩ (runItems (n' + 1) v) = _
    rw [runItems_eq, pushItems_append]
  have hcnt : pushItems ⟨[], 0, []⟩ ((runDigits (n' + 1)).map fun d => (true, d))
      = ⟨[], 2 ^ (runDigits (n' + 1)).length - 1, runDigits (n' + 1)⟩ := by
    rw [pushItems_counters _ _ (by simpa using hk)]
    simp
  rw [hcnt] at hgo
  show (scanAll ⟨[], 0, []⟩ (v :: List.replicate n' v)).out = _
  simp only [scanAll]
  rw [hgo]
  by_cases h8 : (runDigits (n' + 1) ++ [v]).length = 8
  · have happ : pushItems ⟨[], 2 ^ (runDigits (n' + 1)).length - 1,
        runDigits (n' + 1)⟩ [(false, v)]
        = ⟨(2 ^ (runDigits (n' + 1)).length - 1) :: (runDigits (n' + 1) ++ [v]),
            0, []⟩ := by
      show appendToBuff _ v false false = _
      unfold appendToBuff
      simp only [Bool.not_false, if_true]
      rw [if_pos (Or.inl h8)]
      simp
    rw [happ]
    simp
  · have happ : pushItems ⟨[], 2 ^ (runDigits (n' + 1)).length - 1,
        runDigits (n' + 1)⟩ [(false, v)]
        = ⟨[], 2 ^ (runDigits (n' + 1)).length - 1, runDigits (n' + 1) ++ [v]⟩ := by
      show appendToBuff _ v false false = _
      unfold appendToBuff
      simp only [Bool.not_false, if_true]
      rw [if_neg (by simp only [Bool.false_eq_true, or_false]; exact h8)]
      simp
    rw [happ]
    rw [if_pos (by simp)]
    rw [appendToBuff_end]
    simp

theorem getValBitsGo_succ (buf : List Nat) (byte rem bit index count : Nat)
    (cb : Bool) :
    getValBitsGo buf byte (rem + 1) bit index count cb
      = if byte.testBit bit then
          getValBitsGo buf byte rem (bit + 1) (index + 1)
            (((count ||| buf.getD index 0) <<< 8) % 2 ^ 64) true
        else Sum.inl ((if cb then count >>> 8 + 2 else 1, buf.getD index 0),
          ⟨index + 1, bit + 1, byte⟩) := rfl

theorem getValBitsGo_run (v : Nat) (ds : List Nat)
    (hds : ∀ d ∈ ds, d < 256) (hk : ds.length ≤ 7) :
    ∀ (rest pre : List Nat), pre ++ rest = ds →
      getValBitsGo ((2 ^ ds.length - 1) :: (ds ++ [v])) (2 ^ ds.length - 1)
          (8 - pre.length) pre.length (pre.length + 1) (beVal pre * 256)
          (pre.length != 0)
        = Sum.inl ((if ds.length = 0 then 1 else beVal ds + 2, v),
            ⟨ds.length + 2, ds.length + 1, 2 ^ ds.length - 1⟩) := by
  intro rest
  induction rest with
  | nil =>
      intro pre hpre
      rw [List.append_nil] at hpre
      subst hpre
      obtain ⟨r, hr⟩ : ∃ r, 8 - pre.length = r + 1 := ⟨7 - pre.length, by omega⟩
      rw [hr, getValBitsGo_succ, Nat.testBit_two_pow_sub_one]
      rw [if_neg (by simp)]
      have hget : ((2 ^ pre.length - 1) :: (pre ++ [v])).getD (pre.length + 1) 0
          = v := by
        rw [List.getD_cons_succ, List.getD_eq_getElem?_getD,
          List.getElem?_concat_length]
        rfl
      rw [hget]
      by_cases hz : pre.length = 0
      · have hpe : pre = [] := List.eq_nil_of_length_eq_zero hz
        subst hpe
        rfl
      · have hb : (pre.length != 0) = true := by
          simp only [bne_iff_ne, ne_eq]
          exact hz
        rw [if_neg hz, hb, if_pos rfl]
        have hdiv : (beVal pre * 256) >>> 8 = beVal pre := by
          rw [Nat.shiftRight_eq_div_pow]
          have h28 : (2 : Nat) ^ 8 = 256 := by norm_num
          rw [h28]
          exact Nat.mul_div_cancel _ (by omega)
        rw [hdiv]
  | cons d rest ih =>
      intro pre hpre
      have hjk : pre.length < ds.length := by
        rw [← hpre]
        simp only [List.length_append, List.length_cons]
        omega
      obtain ⟨r, hr⟩ : ∃ r, 8 - pre.length = r + 1 := ⟨7 - pre.length, by omega⟩
      rw [hr, getValBitsGo_succ, Nat.testBit_two_pow_sub_one]
      rw [if_pos (by simp [hjk])]
      have hget : ((2 ^ ds.length - 1) :: (ds ++ [v])).getD (pre.length + 1) 0
          = d := by
        rw [List.getD_cons_succ, List.getD_eq_getElem?_getD,
          List.getElem?_append_left hjk, ← hpre,
          List.getElem?_append_right (Nat.le_refl _)]
        simp
      rw [hget]
      have hd : d < 256 := hds d (by rw [← hpre]; simp)
      have hmempre : ∀ e ∈ pre ++ [d], e < 256 := by
        intro e he
        refine hds e ?_
        rw [← hpre]
        rcases List.mem_append.mp he with h | h
        · exact List.mem_append_left _ h
        · rcases List.mem_singleton.mp h with rfl
          exact List.mem_append_right _ (List.mem_cons_self ..)
      have hlen1 : (pre ++ [d]).length = pre.length + 1 := by simp
      have hacc : ((beVal pre * 256 ||| d) <<< 8) % 2 ^ 64
          = beVal (pre ++ [d]) * 256 := by
        have h28 : (2 : Nat) ^ 8 = 256 := by norm_num
        have hor : beVal pre * 256 ||| d = beVal pre * 256 + d := by
          have hh := Nat.mul_add_lt_is_or (show d < 2 ^ 8 by omega) (beVal pre)
          rw [h28] at hh
          rw [Nat.mul_comm 256 (beVal pre)] at hh
          exact hh.symm
        rw [hor, Nat.shiftLeft_eq, h28, ← beVal_append]
        have hlt : beVal (pre ++ [d]) * 256 < 2 ^ 64 := by
          have h1 : beVal (pre ++ [d]) < 256 ^ (pre ++ [d]).length :=
            beVal_lt _ hmempre
          have h2 : (pre ++ [d]).length ≤ 7 := by
            rw [hlen1]
            omega
          have h3 : (256 : Nat) ^ (pre ++ [d]).length ≤ 256 ^ 7 :=
            Nat.pow_le_pow_right (by omega) h2
          have h4 : (256 : Nat) ^ 7 = 72057594037927936 := by norm_num
          have h5 : (2 : Nat) ^ 64 = 18446744073709551616 := by norm_num
          omega
        exact Nat.mod_eq_of_lt hlt
      rw [hacc]
      have hre := ih (pre ++ [d])
        (by rw [List.append_assoc]; exact hpre)
      rw [hlen1] at hre
      have hr2 : 8 - (pre.length + 1) = r := by omega
      rw [hr2] at hre
      have hbne : (pre.length + 1 != 0) = true := by simp
      rw [hbne] at hre
      exact hre

theorem getValCountGo_succ (buf : List Nat) (size fuel index bit byte count : Nat)
    (cb : Bool) :
    getValCountGo buf size (fuel + 1) index bit byte count cb
      = if index < size then
          let byte' := if bit = 0 then buf.getD index 0 else byte
          let index' := if bit = 0 then index + 1 else index
          match getValBits buf byte' bit index' count cb with
          | Sum.inl r => some r
          | Sum.inr (count', count_bit', index'') =>
              getValCountGo buf size fuel index'' 0 byte' count' count_bit'
        else none := rfl

theorem getValCountGo_start_inl (buf : List Nat) (size fuel : Nat)
    (r : (Nat × Nat) × RdState) (hsz : 0 < size)
    (hbits : getValBits buf (buf.getD 0 0) 0 1 0 false = Sum.inl r) :
    getValCountGo buf size (fuel + 1) 0 0 0 0 false = some r := by
  rw [getValCountGo_succ, if_pos hsz]
  show (match getValBits buf (buf.getD 0 0) 0 1 0 false with
    | Sum.inl r => some r
    | Sum.inr (count', count_bit', index'') =>
        getValCountGo buf size fuel index'' 0 (buf.getD 0 0) count' count_bit')
    = some r
  rw [hbits]

theorem getValCount_run (v : Nat) (ds : List Nat)
    (hds : ∀ d ∈ ds, d < 256) (hk : ds.length ≤ 7) :
    GetValCount ((2 ^ ds.length - 1) :: (ds ++ [v]))
        ((2 ^ ds.length - 1) :: (ds ++ [v])).length ⟨0, 0, 0⟩
      = some ((if ds.length = 0 then 1 else beVal ds + 2, v),
          ⟨ds.length + 2, ds.length + 1, 2 ^ ds.length - 1⟩) := by
  have hbits : getValBits ((2 ^ ds.length - 1) :: (ds ++ [v]))
      (((2 ^ ds.length - 1) :: (ds ++ [v])).getD 0 0) 0 1 0 false
      = Sum.inl ((if ds.length = 0 then 1 else beVal ds + 2, v),
          ⟨ds.length + 2, ds.length + 1, 2 ^ ds.length - 1⟩) := by
    show getValBitsGo ((2 ^ ds.length - 1) :: (ds ++ [v])) (2 ^ ds.length - 1)
        (8 - 0) 0 1 0 false = _
    have hrun := getValBitsGo_run v ds hds hk ds [] rfl
    simpa [beVal] using hrun
  exact getValCountGo_start_inl _ _ _ _ (by simp) hbits

/-- C4: the classified items a run of `n` copies of `v` contributes to
the stream are: just the value byte for `n = 1`; the counter fragment
`0x00` then the value for `n = 2`; the big-endian base-256 digits of
`n - 2` (no leading zero, every digit a byte) as counter fragments then
the value for `n ≥ 3`.  `GetValCount` inverts this: on the packed
stream of that run it returns count 1 when no counter fragment was
read, and the accumulated counter plus 2 — that is, `n` — otherwise,
together with the value `v`. -/
theorem claim_C4 (n v : Nat) (hn : 1 ≤ n) (_hv : v < 256) (hb : n ≤ 2 ^ 56) :
    runItems n v = (runDigits n).map (fun d => (true, d)) ++ [(false, v)] ∧
      runDigits 1 = [] ∧ runDigits 2 = [0] ∧
      (3 ≤ n → runDigits n = (digitsLE (n - 2)).reverse ∧
        beVal (runDigits n) = n - 2 ∧
        (runDigits n).headD 1 ≠ 0 ∧
        ∀ d ∈ runDigits n, d < 256) ∧
      GetValCount (scanAll ⟨[], 0, []⟩ (List.replicate n v)).out
          (scanAll ⟨[], 0, []⟩ (List.replicate n v)).out.length ⟨0, 0, 0⟩
        = some ((n, v),
            ⟨(runDigits n).length + 2, (runDigits n).length + 1,
              2 ^ (runDigits n).length - 1⟩) := by
  have h3eq : 3 ≤ n → runDigits n = (digitsLE (n - 2)).reverse := by
    intro h3
    unfold runDigits
    rw [if_pos (by omega), if_neg (by omega)]
  have hds : ∀ d ∈ runDigits n, d < 256 := by
    rcases Nat.lt_or_ge n 3 with hsm | h3
    · interval_cases n
      · intro d hd; simp [runDigits] at hd
      · intro d hd
        simp only [runDigits, if_pos] at hd
        simp at hd
        omega
    · rw [h3eq h3]
      intro d hd
      exact digitsLE_lt256 (n - 2) d (List.mem_reverse.mp hd)
  have hk : (runDigits n).length ≤ 7 := by
    rcases Nat.lt_or_ge n 3 with hsm | h3
    · interval_cases n <;> simp [runDigits]
    · rw [h3eq h3, List.length_reverse]
      refine digitsLE_length (n - 2) 7 ?_
      have : (256 : Nat) ^ 7 = 2 ^ 56 := by norm_num
      omega
  have hcount : (if (runDigits n).length = 0 then 1 else beVal (runDigits n) + 2)
      = n := by
    rcases Nat.lt_or_ge n 3 with hsm | h3
    · interval_cases n
      · rfl
      · rfl
    · rw [h3eq h3]
      obtain ⟨hd, tl, heq, _⟩ := digitsLE_reverse_head (n - 2) (by omega)
      rw [heq]
      rw [if_neg (by simp)]
      rw [← heq, beVal_digitsLE]
      omega
  refine ⟨runItems_eq n v, rfl, rfl, ?_, ?_⟩
  · intro h3
    obtain ⟨hd, tl, heq, hne⟩ := digitsLE_reverse_head (n - 2) (by omega)
    refine ⟨h3eq h3, ?_, ?_, hds⟩
    · rw [h3eq h3, beVal_digitsLE]
    · rw [h3eq h3, heq]
      simpa using hne
  · rw [scan_const_stream n v hn hk]
    have hfin := getValCount_run v (runDigits n) hds hk
    rw [hcount] at hfin
    exact hfin

theorem claim_C4_witness :
    (1 ≤ 300 ∧ 7 < 256 ∧ 300 ≤ 2 ^ 56) ∧
      (runItems 300 7 = (runDigits 300).map (fun d => (true, d)) ++ [(false, 7)] ∧
        runDigits 1 = [] ∧ runDigits 2 = [0] ∧
        (3 ≤ 300 → runDigits 300 = (digitsLE (300 - 2)).reverse ∧
          beVal (runDigits 300) = 300 - 2 ∧
          (runDigits 300).headD 1 ≠ 0 ∧
          ∀ d ∈ runDigits 300, d < 256) ∧
        GetValCount (scanAll ⟨[], 0, []⟩ (List.replicate 300 7)).out
            (scanAll ⟨[], 0, []⟩ (List.replicate 300 7)).out.length ⟨0, 0, 0⟩
          = some ((300, 7),
              ⟨(runDigits 300).length + 2, (runDigits 300).length + 1,
                2 ^ (runDigits 300).length - 1⟩)) :=
  ⟨⟨by decide, by decide, by decide⟩,
    claim_C4 300 7 (by decide) (by decide) (by decide)⟩

theorem pushItems_size : ∀ (items : List (Bool × Nat)) (st : RleBuf),
    st.vec.length < 8 →
    ∃ k, (pushItems st items).out.length = st.out.length + 9 * k ∧
      (pushItems st items).vec.length + 8 * k = st.vec.length + items.length ∧
      (pushItems st items).vec.length < 8 := by
  intro items
  induction items with
  | nil =>
      intro st hv
      exact ⟨0, by simp [pushItems], by simp [pushItems], by simpa [pushItems]⟩
  | cons it items ih =>
      intro st hv
      simp only [pushItems, List.foldl_cons]
      by_cases h8 : (st.vec ++ [it.2]).length = 8
      · have happ : appendToBuff st it.2 it.1 false
            = ⟨st.out ++ (if it.1 then set_bit st.group st.vec.length
                else st.group) :: (st.vec ++ [it.2]), 0, []⟩ := by
          unfold appendToBuff
          simp only [Bool.not_false, if_true]
          rw [if_pos (Or.inl h8)]
        rw [happ]
        obtain ⟨k, h1, h2, h3⟩ := ih ⟨st.out ++ _ :: (st.vec ++ [it.2]), 0, []⟩
          (by simp)
        refine ⟨k + 1, ?_, ?_, h3⟩
        · simp only [pushItems] at h1
          rw [h1]
          simp only [List.length_append, List.length_cons, List.length_append,
            List.length_singleton] at h8 ⊢
          omega
        · simp only [pushItems] at h2
          simp only [List.length_append, List.length_singleton,
            List.length_nil] at h2 h8 ⊢
          simp only [List.length_cons]
          omega
      · have happ : appendToBuff st it.2 it.1 false
            = ⟨st.out, (if it.1 then set_bit st.group st.vec.length
                else st.group), st.vec ++ [it.2]⟩ := by
          unfold appendToBuff
          simp only [Bool.not_false, if_true]
          rw [if_neg (by simp only [Bool.false_eq_true, or_false]; exact h8)]
        rw [happ]
        obtain ⟨k, h1, h2, h3⟩ := ih ⟨st.out, _, st.vec ++ [it.2]⟩
          (by simp only [List.length_append, List.length_singleton] at h8 ⊢
              omega)
        refine ⟨k, ?_, ?_, h3⟩
        · simpa [pushItems] using h1
        · simp only [pushItems] at h2
          simp only [List.length_append, List.length_singleton] at h2 ⊢
          simp only [List.length_cons]
          omega

theorem scanGo_eq_pushItems : ∀ (rest : List Nat) (st : RleBuf) (p c : Nat),
    scanGo st p c rest = pushItems st (scanItems p c rest) := by
  intro rest
  induction rest with
  | nil => intro st p c; rfl
  | cons q t ih =>
      intro st p c
      by_cases hq : q = p
      · simp only [scanGo, scanItems, if_pos hq]
        exact ih st p (c + 1)
      · simp only [scanGo, scanItems, if_neg hq]
        rw [pushItems_append]
        exact ih (appendCounterValue st p c) q 1

theorem digitsLE_length_le_self : ∀ m, 1 ≤ m → (digitsLE m).length ≤ m := by
  intro m
  induction m using Nat.strong_induction_on with
  | _ m ih =>
      intro hm
      rw [digitsLE_eq, if_neg (by omega)]
      simp only [List.length_cons]
      by_cases hq : m / 256 = 0
      · rw [hq, digitsLE_eq]
        simp
        omega
      · have hlt : m / 256 < m := Nat.div_lt_self (by omega) (by omega)
        have := ih (m / 256) hlt (by omega)
        omega

theorem runItems_length_le (c p : Nat) (hc : 1 ≤ c) :
    (runItems c p).length ≤ c := by
  unfold runItems
  by_cases h1 : c > 1
  · rw [if_pos h1]
    by_cases h2 : c = 2
    · subst h2; simp
    · rw [if_neg h2]
      have := digitsLE_length_le_self (c - 2) (by omega)
      simp only [List.length_append, List.length_map, List.length_reverse,
        List.length_singleton]
      omega
  · rw [if_neg h1]
    simpa using hc

theorem scanItems_length : ∀ (rest : List Nat) (p c : Nat), 1 ≤ c →
    (scanItems p c rest).length ≤ c + rest.length := by
  intro rest
  induction rest with
  | nil =>
      intro p c hc
      simpa using runItems_length_le c p hc
  | cons q t ih =>
      intro p c hc
      by_cases hq : q = p
      · simp only [scanItems, if_pos hq]
        have := ih p (c + 1) (by omega)
        simp only [List.length_cons]
        omega
      · simp only [scanItems, if_neg hq]
        have h1 := runItems_length_le c p hc
        have h2 := ih q 1 (by omega)
        simp only [List.length_append, List.length_cons]
        omega

theorem scanAll_size (ys header : List Nat) :
    (scanAll ⟨header, 0, []⟩ ys).out.length
      ≤ header.length + ys.length + (ys.length + 7) / 8 + 1 := by
  cases ys with
  | nil => simp [scanAll]
  | cons p t =>
      simp only [scanAll]
      rw [scanGo_eq_pushItems]
      obtain ⟨k, h1, h2, h3⟩ :=
        pushItems_size (scanItems p 1 t) ⟨header, 0, []⟩ (by simp)
      have hil : (scanItems p 1 t).length ≤ 1 + t.length :=
        scanItems_length t p 1 (by omega)
      have h0 : ({ out := header, group := 0, vec := [] } : RleBuf).out = header := rfl
      rw [h0] at h1
      simp only [List.length_nil] at h2
      by_cases hz :
          (pushItems ⟨header, 0, []⟩ (scanItems p 1 t)).vec.length > 0
      · rw [if_pos hz, appendToBuff_end]
        simp only [List.length_append, List.length_cons, List.length_cons]
        omega
      · rw [if_neg hz]
        simp only [List.length_cons]
        omega

theorem flatMapRange_length {α : Type} (w h : Nat) (f : Nat → Nat → α) :
    ((List.range w).flatMap fun x => (List.range h).map (f x)).length = w * h := by
  induction w with
  | zero => simp
  | succ w ih =>
      rw [List.range_succ, List.flatMap_append, List.length_append, ih]
      simp [Nat.succ_mul]

theorem colMajor_length (w h : Nat) (xs : List Nat) :
    (colMajor w h xs).length = w * h :=
  flatMapRange_length w h (fun x y => xs.getD (y * w + x) 0)

theorem minBytesLEGo_congr : ∀ fuel₁ fuel₂ v, v < fuel₁ → v < fuel₂ →
    minBytesLEGo fuel₁ v = minBytesLEGo fuel₂ v := by
  intro fuel₁
  induction fuel₁ with
  | zero => intro fuel₂ v h₁ _; omega
  | succ f ih =>
      intro fuel₂ v h₁ h₂
      obtain ⟨f₂, rfl⟩ : ∃ f₂, fuel₂ = f₂ + 1 := ⟨fuel₂ - 1, by omega⟩
      show (if v > 255 then v % 256 :: minBytesLEGo f (v / 256) else [v % 256])
        = (if v > 255 then v % 256 :: minBytesLEGo f₂ (v / 256) else [v % 256])
      by_cases hv : v > 255
      · rw [if_pos hv, if_pos hv]
        have hlt : v / 256 < v := Nat.div_lt_self (by omega) (by omega)
        rw [ih f₂ (v / 256) (by omega) (by omega)]
      · rw [if_neg hv, if_neg hv]

theorem minBytesLE_eq (v : Nat) :
    minBytesLE v = if v > 255 then v % 256 :: minBytesLE (v / 256)
      else [v % 256] := by
  unfold minBytesLE
  show (if v > 255 then v % 256 :: minBytesLEGo v (v / 256) else [v % 256]) = _
  by_cases hv : v > 255
  · rw [if_pos hv, if_pos hv]
    have hlt : v / 256 < v := Nat.div_lt_self (by omega) (by omega)
    rw [minBytesLEGo_congr v (v / 256 + 1) (v / 256) (by omega) (by omega)]
  · rw [if_neg hv, if_neg hv]

theorem minBytesLE_length : ∀ v j, 1 ≤ j → v < 256 ^ j →
    (minBytesLE v).length ≤ j := by
  intro v
  induction v using Nat.strong_induction_on with
  | _ v ih =>
      intro j hj hv
      rw [minBytesLE_eq]
      by_cases h255 : v > 255
      · rw [if_pos h255]
        obtain ⟨j', rfl⟩ : ∃ j', j = j' + 1 := ⟨j - 1, by omega⟩
        have hj' : 1 ≤ j' := by
          by_contra hc
          have : j' = 0 := by omega
          subst this
          simp at hv
          omega
        have hdd : v / 256 < 256 ^ j' := by
          apply Nat.div_lt_of_lt_mul
          rw [Nat.mul_comm]
          exact hv.trans_le (le_of_eq (Nat.pow_succ ..))
        have := ih (v / 256) (Nat.div_lt_self (by omega) (by omega)) j' hj' hdd
        simp only [List.length_cons]
        omega
      · rw [if_neg h255]
        simpa using hj

theorem appendSettings_length (base w h : Nat) :
    (appendSettingsToBuff base w h).length
      = 1 + (minBytesLE (w % 2 ^ 32)).length + (minBytesLE (h % 2 ^ 32)).length := by
  simp [appendSettingsToBuff]
  omega

/-- C7: for every image of `W * H` bytes the RLE compressor's output —
header plus payload, for both the plain horizontal scan and the
adaptive scan — is at most `W*H + ceil(W*H/8) + 1 + header_size`, with
`header_size ≤ 17` (it is in fact at most 9: one settings byte plus at
most four width and four height bytes, the dimensions being 32-bit). -/
theorem claim_C7 (W H : Nat) (m : Bool) (xs : List Nat)
    (_hW : 1 ≤ W) (_hH : 1 ≤ H) (hlen : xs.length = W * H) :
    (1 + (minBytesLE (W % 2 ^ 32)).length + (minBytesLE (H % 2 ^ 32)).length ≤ 17) ∧
      (SequenceScanning W H m xs).length
        ≤ W * H + (W * H + 7) / 8 + 1
          + (1 + (minBytesLE (W % 2 ^ 32)).length + (minBytesLE (H % 2 ^ 32)).length) ∧
      (AdaptiveScanning W H m xs).length
        ≤ W * H + (W * H + 7) / 8 + 1
          + (1 + (minBytesLE (W % 2 ^ 32)).length + (minBytesLE (H % 2 ^ 32)).length) := by
  have hw4 : (minBytesLE (W % 2 ^ 32)).length ≤ 4 :=
    minBytesLE_length (W % 2 ^ 32) 4 (by omega)
      (by have : (256 : Nat) ^ 4 = 2 ^ 32 := by norm_num
          omega)
  have hh4 : (minBytesLE (H % 2 ^ 32)).length ≤ 4 :=
    minBytesLE_length (H % 2 ^ 32) 4 (by omega)
      (by have : (256 : Nat) ^ 4 = 2 ^ 32 := by norm_num
          omega)
  have hhor : ∀ base, (HorizontalScanning
      ⟨appendSettingsToBuff base W H, 0, []⟩ xs).out.length
      ≤ W * H + (W * H + 7) / 8 + 1
        + (1 + (minBytesLE (W % 2 ^ 32)).length
          + (minBytesLE (H % 2 ^ 32)).length) := by
    intro base
    have := scanAll_size xs (appendSettingsToBuff base W H)
    rw [appendSettings_length, hlen] at this
    unfold HorizontalScanning
    omega
  have hver : ∀ base, (VerticalScanning
      ⟨appendSettingsToBuff base W H, 0, []⟩ W H xs).out.length
      ≤ W * H + (W * H + 7) / 8 + 1
        + (1 + (minBytesLE (W % 2 ^ 32)).length
          + (minBytesLE (H % 2 ^ 32)).length) := by
    intro base
    have := scanAll_size (colMajor W H xs) (appendSettingsToBuff base W H)
    rw [appendSettings_length, colMajor_length] at this
    unfold VerticalScanning
    omega
  have hpick : ∀ (A B : List Nat) (bound : Nat), A.length ≤ bound →
      B.length ≤ bound → (if B.length ≤ A.length then B else A).length ≤ bound := by
    intro A B bound hA hB
    split
    · exact hB
    · exact hA
  refine ⟨by omega, hhor _, ?_⟩
  exact hpick _ _ _ (hhor _) (hver _)

theorem claim_C7_witness :
    (1 ≤ 2 ∧ 1 ≤ 1 ∧ ([0, 1] : List Nat).length = 2 * 1) ∧
      ((1 + (minBytesLE (2 % 2 ^ 32)).length + (minBytesLE (1 % 2 ^ 32)).length ≤ 17) ∧
        (SequenceScanning 2 1 false [0, 1]).length
          ≤ 2 * 1 + (2 * 1 + 7) / 8 + 1
            + (1 + (minBytesLE (2 % 2 ^ 32)).length + (minBytesLE (1 % 2 ^ 32)).length) ∧
        (AdaptiveScanning 2 1 false [0, 1]).length
          ≤ 2 * 1 + (2 * 1 + 7) / 8 + 1
            + (1 + (minBytesLE (2 % 2 ^ 32)).length + (minBytesLE (1 % 2 ^ 32)).length)) :=
  ⟨⟨by decide, by decide, by decide⟩,
    claim_C7 2 1 false [0, 1] (by decide) (by decide) (by decide)⟩

theorem sumCounts_cons (c v : Nat) (l : List (Nat × Nat)) :
    sumCounts ((c, v) :: l) = c + sumCounts l := by
  simp [sumCounts]

theorem getValBitsGo_facts (buf : List Nat) (byte : Nat) : ∀ rem bit index count cb,
    (∀ c' v' rs, getValBitsGo buf byte rem bit index count cb
        = Sum.inl ((c', v'), rs) → index < rs.index ∧ 1 ≤ c') ∧
    (∀ c' cb' i', getValBitsGo buf byte rem bit index count cb
        = Sum.inr (c', cb', i') → index ≤ i') := by
  intro rem
  induction rem with
  | zero =>
      intro bit index count cb
      constructor
      · intro c' v' rs h
        exact absurd h (by simp [getValBitsGo])
      · intro c' cb' i' h
        simp only [getValBitsGo, Sum.inr.injEq, Prod.mk.injEq] at h
        obtain ⟨-, -, h3⟩ := h
        omega
  | succ rem ih =>
      intro bit index count cb
      constructor
      · intro c' v' rs h
        rw [getValBitsGo_succ] at h
        by_cases ht : byte.testBit bit
        · rw [if_pos ht] at h
          have := (ih (bit + 1) (index + 1) _ true).1 c' v' rs h
          omega
        · rw [if_neg ht] at h
          simp only [Sum.inl.injEq, Prod.mk.injEq] at h
          obtain ⟨⟨hc, -⟩, hrs⟩ := h
          subst hrs
          refine ⟨?_, ?_⟩
          · show index < index + 1
            omega
          · rw [← hc]
            by_cases hcb : cb = true
            · rw [if_pos hcb]; omega
            · rw [if_neg hcb]
      · intro c' cb' i' h
        rw [getValBitsGo_succ] at h
        by_cases ht : byte.testBit bit
        · rw [if_pos ht] at h
          have := (ih (bit + 1) (index + 1) _ true).2 c' cb' i' h
          omega
        · rw [if_neg ht] at h
          exact absurd h (by simp)

theorem getValCountGo_facts (buf : List Nat) (size : Nat) :
    ∀ fuel index bit byte count cb c' v' st',
      getValCountGo buf size fuel index bit byte count cb = some ((c', v'), st') →
      index < size ∧ index < st'.index ∧ 1 ≤ c' := by
  intro fuel
  induction fuel with
  | zero =>
      intro index bit byte count cb c' v' st' h
      exact absurd h (by simp [getValCountGo])
  | succ fuel ih =>
      intro index bit byte count cb c' v' st' h
      rw [getValCountGo_succ] at h
      by_cases hsz : index < size
      · rw [if_pos hsz] at h
        simp only [] at h
        set B := (if bit = 0 then buf.getD index 0 else byte) with hBdef
        set I := (if bit = 0 then index + 1 else index) with hIdef
        have hI : index ≤ I := by
          rw [hIdef]
          by_cases hb : bit = 0
          · rw [if_pos hb]; omega
          · rw [if_neg hb]
        split at h
        next r heq =>
            obtain ⟨⟨rc, rv⟩, rs⟩ := r
            unfold getValBits at heq
            have hbits := (getValBitsGo_facts buf B (8 - bit) bit I count cb).1
              rc rv rs heq
            simp only [Option.some.injEq, Prod.mk.injEq] at h
            obtain ⟨⟨hc, -⟩, hst⟩ := h
            subst hst hc
            exact ⟨hsz, by omega, hbits.2⟩
        next ca ba ia heq =>
            unfold getValBits at heq
            have hle2 := (getValBitsGo_facts buf B (8 - bit) bit I count cb).2
              ca ba ia heq
            have hnext := ih ia 0 B ca ba c' v' st' h
            exact ⟨hsz, by omega, hnext.2.2⟩
      · rw [if_neg hsz] at h
        exact absurd h (by simp)

theorem getValCount_facts (buf : List Nat) (size : Nat) (st : RdState)
    (c v : Nat) (st' : RdState)
    (h : GetValCount buf size st = some ((c, v), st')) :
    st.index < size ∧ st.index < st'.index ∧ 1 ≤ c := by
  unfold GetValCount at h
  exact getValCountGo_facts buf size (size + 1) st.index st.bit st.byte 0 false
    c v st' h

theorem horizLoop_char (buf : List Nat) (size alloc : Nat) :
    ∀ fuel (out : List Nat) (st : RdState), 0 < fuel →
      size + 1 ≤ fuel + st.index → out.length ≤ alloc →
      ((decompHorizGo buf size alloc fuel out st).2 = true
        ↔ alloc ≤ out.length + sumCounts (decodePairsGo buf size fuel st)) ∧
      ((decompHorizGo buf size alloc fuel out st).2 = true →
        (decompHorizGo buf size alloc fuel out st).1.length = alloc) := by
  intro fuel
  induction fuel with
  | zero =>
      intro out st h0 _ _
      exact absurd h0 (by omega)
  | succ fuel ih =>
      intro out st _ hfl hol
      cases hgv : GetValCount buf size st with
      | none =>
          simp only [decompHorizGo, decodePairsGo, hgv, sumCounts, List.map_nil,
            List.sum_nil, Nat.add_zero]
          refine ⟨⟨fun he => ?_, fun hle => ?_⟩, fun he => of_decide_eq_true he⟩
          · have := of_decide_eq_true he
            omega
          · exact decide_eq_true (by omega)
      | some ps =>
          obtain ⟨⟨count, val⟩, st'⟩ := ps
          obtain ⟨hsz, hinc, hcpos⟩ := getValCount_facts buf size st count val st' hgv
          have hfuel : 0 < fuel := by omega
          simp only [decompHorizGo, decodePairsGo, hgv]
          by_cases hovf : out.length + count > alloc
          · rw [if_pos hovf]
            simp only [sumCounts_cons]
            refine ⟨⟨fun _ => by omega, fun _ => trivial⟩, fun _ => ?_⟩
            simp only [List.length_append, List.length_replicate]
            omega
          · rw [if_neg hovf]
            have hrec := ih (out ++ List.replicate count val) st' hfuel (by omega)
              (by simp only [List.length_append, List.length_replicate]; omega)
            simp only [List.length_append, List.length_replicate] at hrec
            simp only [sumCounts_cons]
            refine ⟨?_, hrec.2⟩
            rw [hrec.1]
            omega

/-- C9: for a horizontal RLE stream whose header parses to dimensions
`width × height`, `RleDecompressor::Decompress` succeeds exactly when
the decoded `(count, value)` pairs cover at least `width * height`
(32-bit) output bytes: a stream whose pairs fill fewer pixels fails,
while a pair overflowing the image is truncated to the remaining
capacity and the call succeeds; on success the output holds exactly
`width * height` bytes. -/
theorem claim_C9 (buf : List Nat) (size width height start : Nat)
    (hsz : size ≠ 0)
    (hhor : buf.getD 0 0 &&& SCANNING_MASK ≠ 0)
    (hgs : RleGetSize buf size = some (width, height, start)) :
    ((RleDecompress buf size).isSome
      ↔ width * height % 2 ^ 32
          ≤ sumCounts (decodePairs buf size ⟨start, 0, 0⟩)) ∧
    (∀ img m0, RleDecompress buf size = some (img, m0)
      → img.length = width * height % 2 ^ 32) := by
  have hstart : 1 ≤ start := by
    have hgs' := hgs
    simp only [RleGetSize] at hgs'
    split at hgs'
    · exact absurd hgs' (by simp)
    · simp only [Option.some.injEq, Prod.mk.injEq] at hgs'
      obtain ⟨-, -, h3⟩ := hgs'
      omega
  rcases hDH : DecompressHorizontally buf size (width * height % 2 ^ 32) start
    with ⟨img0, ok0⟩
  have hDH' : decompHorizGo buf size (width * height % 2 ^ 32) (size + 1) []
      ⟨start, 0, 0⟩ = (img0, ok0) := hDH
  have hchar := horizLoop_char buf size (width * height % 2 ^ 32)
    (size + 1) [] ⟨start, 0, 0⟩ (by omega)
    (by show size + 1 ≤ size + 1 + start; omega)
    (Nat.zero_le _)
  rw [hDH'] at hchar
  simp only [List.length_nil, Nat.zero_add] at hchar
  have hdp : decodePairs buf size ⟨start, 0, 0⟩
      = decodePairsGo buf size (size + 1) ⟨start, 0, 0⟩ := rfl
  have hred : RleDecompress buf size
      = if ok0 = true
        then some (img0, decide (buf.getD 0 0 &&& MODEL_MASK ≠ 0))
        else none := by
    simp only [RleDecompress, hgs, hDH]
    rw [if_neg hsz, if_pos hhor]
  refine ⟨?_, ?_⟩
  · rw [hred, hdp]
    cases ok0 with
    | false =>
        simp only [Bool.false_eq_true, if_false, Option.isSome_none,
          Bool.false_eq_true, false_iff]
        intro hle
        exact Bool.false_ne_true (hchar.1.mpr hle)
    | true =>
        simp only [if_pos, Option.isSome_some, true_iff]
        exact hchar.1.mp rfl
  · intro img m0 him
    rw [hred] at him
    cases ok0 with
    | false => simp at him
    | true =>
        rw [if_pos rfl] at him
        simp only [Option.some.injEq, Prod.mk.injEq] at him
        rw [← him.1]
        exact hchar.2 rfl

theorem claim_C9_witness :
    (RleDecompress [128, 2, 1] 3).isSome
      ↔ 2 * 1 % 2 ^ 32 ≤ sumCounts (decodePairs [128, 2, 1] 3 ⟨3, 0, 0⟩) :=
  (claim_C9 [128, 2, 1] 3 2 1 3 (by decide) (by decide) (by decide)).1

/-- C5 counterexample: a 12-byte buffer whose settings byte declares
`K_w = 8` width bytes (and `K_h = 1`) decompresses successfully even
though its length is below 17, contradicting the claim that any buffer
with `K_w = 8` and length < 17 makes the decoder fail. -/
theorem claim_C5_counterexample :
    RleDecompress [0xB8, 0, 0, 0, 0, 0, 0, 0, 1, 1, 0, 5] 12 = some ([5], false) := by
  decide

/-- C5 (amended): `RleDecompressor::Decompress` returns failure
whenever the buffer size is below `K_w + K_h` — the code's header
check omits the settings byte from the count, so a buffer exactly one
byte short of the full header is not rejected; in particular failure
for `K_w = 8` is only guaranteed when `size < K_w + K_h`, e.g.
`K_w = K_h = 8` with length < 16. -/
theorem claim_C5 (buf : List Nat) (size : Nat)
    (h : size < ((buf.getD 0 0 &&& WIDTH_COUNT_MASK) >>> 3 + 1)
        + ((buf.getD 0 0 &&& HEIGHT_COUNT_MASK) + 1)) :
    RleDecompress buf size = none := by
  have hg : RleGetSize buf size = none := by
    unfold RleGetSize
    rw [if_pos (by omega)]
  unfold RleDecompress
  rw [hg]
  by_cases hs : size = 0
  · rw [if_pos hs]
  · rw [if_neg hs]

theorem claim_C5_witness :
    ((1 : Nat) < ((([0xFF] : List Nat).getD 0 0 &&& WIDTH_COUNT_MASK) >>> 3 + 1)
        + ((([0xFF] : List Nat).getD 0 0 &&& HEIGHT_COUNT_MASK) + 1)) ∧
      RleDecompress [0xFF] 1 = none :=
  ⟨by decide, claim_C5 [0xFF] 1 (by decide)⟩

/-- C6 counterexample: for the spec's own worked scenario
(`x = [0x00, 0x01]`, `W = 2`), the final partial group is emitted with
only the two accepted payload bytes — the stream is 6 bytes, not the
12 bytes the claim's zero-padded group would give. -/
theorem claim_C6_counterexample :
    SequenceScanning 2 1 false [0, 1] = [0x80, 2, 1, 0, 0, 1] ∧
      SequenceScanning 2 1 false [0, 1]
        ≠ [0x80, 2, 1, 0, 0, 1, 0, 0, 0, 0, 0, 0] := by
  decide

/-- C6 (amended): a scan ending with a partially filled group
finalises it through `appendToBuff(…, 0x00, value-class, end_push)`,
which emits the group byte followed by exactly the accepted payload
bytes; the `0x00` literal passed as padding is discarded by the
`end_push` flag, so no padding bytes are appended, and the group
byte's classifier bits are zero beyond the accepted payload. -/
theorem claim_C6 (st : RleBuf) (_hv : 0 < st.vec.length)
    (hg : st.group < 2 ^ st.vec.length) :
    appendToBuff st 0 false true = ⟨st.out ++ st.group :: st.vec, 0, []⟩ ∧
      ∀ i, st.vec.length ≤ i → (st.group).testBit i = false := by
  refine ⟨by simp [appendToBuff], fun i hi => ?_⟩
  exact Nat.testBit_lt_two_pow
    (lt_of_lt_of_le hg (Nat.pow_le_pow_right (by omega) hi))

theorem claim_C6_witness :
    (0 < (RleBuf.mk [] 0 [5]).vec.length ∧
      (RleBuf.mk [] 0 [5]).group < 2 ^ (RleBuf.mk [] 0 [5]).vec.length) ∧
      (appendToBuff ⟨[], 0, [5]⟩ 0 false true = ⟨[] ++ 0 :: [5], 0, []⟩ ∧
        ∀ i, (RleBuf.mk [] 0 [5]).vec.length ≤ i → (0 : Nat).testBit i = false) :=
  ⟨⟨by decide, by decide⟩, claim_C6 ⟨[], 0, [5]⟩ (by decide) (by decide)⟩

end GIC
